import Mathlib

/-!
Verification of the strikemd annotation core.

Strings are modelled as `List Char` (`Str`). Each definition in the
`StrikeMD` namespace is a direct translation of a function of the
repository (`src/parse.ts`, `src/reconstruct.ts`, `src/ai.ts`,
`src/ui/app.js`); the regular-expression based scanning functions are
modelled operationally (leftmost match, lazy bodies bounded by the first
closing tag, greedy bounded attribute values), with fuel where the
recursion is not structural.  Theorems about the claims follow after the
definitions.
-/

namespace StrikeMD

/-- Strings as lists of characters. -/
abbrev Str := List Char

/-- Character list of a string literal. -/
def strL (s : String) : Str := s.data

/-- Whitespace as matched by the JS `\s` class and `trim` (ASCII part). -/
def isWsC (c : Char) : Bool :=
  c = ' ' || c = '\t' || c = '\n' || c = '\r' || c = '\x0b' || c = '\x0c'

/-- JS `trimStart` on character lists. -/
def trimStartL (s : Str) : Str := s.dropWhile isWsC

/-- JS `trimEnd` on character lists. -/
def trimEndL (s : Str) : Str := (s.reverse.dropWhile isWsC).reverse

/-- JS `trim` on character lists. -/
def trimL (s : Str) : Str := trimEndL (trimStartL s)

/-- `p` is a prefix of `s` (decidable, by direct recursion). -/
def isPrefixL : Str → Str → Bool
  | [], _ => true
  | _ :: _, [] => false
  | p :: ps, c :: cs => p = c && isPrefixL ps cs

/-- Index of the first occurrence of `pat` in `s` (JS `indexOf`),
`none` when `pat` does not occur. -/
def firstIdx (pat : Str) : Str → Option Nat
  | [] => if isPrefixL pat [] then some 0 else none
  | c :: cs =>
    if isPrefixL pat (c :: cs) then some 0
    else (firstIdx pat cs).map (· + 1)

/-- `pat` occurs as a substring of `s` (JS `includes`). -/
def containsSub (pat s : Str) : Bool := (firstIdx pat s).isSome

/-- JS `slice(a, b)` on character lists. -/
def sliceL (s : Str) (a b : Nat) : Str := (s.drop a).take (b - a)

/-- `replace(/&/g, "&amp;")` from `escapeAttr` in reconstruct.ts. -/
def replaceAmp : Str → Str
  | [] => []
  | c :: t =>
    if c = '&' then '&' :: 'a' :: 'm' :: 'p' :: ';' :: replaceAmp t
    else c :: replaceAmp t

/-- `replace(/"/g, "&quot;")` from `escapeAttr` in reconstruct.ts. -/
def replaceQuote : Str → Str
  | [] => []
  | c :: t =>
    if c = '"' then '&' :: 'q' :: 'u' :: 'o' :: 't' :: ';' :: replaceQuote t
    else c :: replaceQuote t

/-- `escapeAttr` from reconstruct.ts: entity-escape `&` then `"`. -/
def escapeAttr (s : Str) : Str := replaceQuote (replaceAmp s)

/-- `replace(/&quot;/g, s)` as used when parseChanges reads attributes. -/
def unrepQuot : Str → Str
  | '&' :: 'q' :: 'u' :: 'o' :: 't' :: ';' :: t => '"' :: unrepQuot t
  | c :: t => c :: unrepQuot t
  | [] => []

/-- `replace(/&amp;/g, s)` as used when parseChanges reads attributes. -/
def unrepAmp : Str → Str
  | '&' :: 'a' :: 'm' :: 'p' :: ';' :: t => '&' :: unrepAmp t
  | c :: t => c :: unrepAmp t
  | [] => []

/-- The unescaping applied by `parseChanges` to `comment` and
`replaceWith` attribute values: `&quot;` then `&amp;`. -/
def unescapeAttr (s : Str) : Str := unrepAmp (unrepQuot s)

/-- One-step escape function equivalent to the two-pass `escapeAttr`. -/
def escDirect : Str → Str
  | [] => []
  | c :: t =>
    if c = '&' then '&' :: 'a' :: 'm' :: 'p' :: ';' :: escDirect t
    else if c = '"' then '&' :: 'q' :: 'u' :: 'o' :: 't' :: ';' :: escDirect t
    else c :: escDirect t

/-! ### The del/ins annotation codec of `src/parse.ts` -/

/-- A parsed change record (`Change` in parse.ts). -/
structure ChangeRec where
  comment : Str
  deleted : Option Str
  inserted : Option Str
  fullMatch : Str
  startOffset : Nat
  endOffset : Nat
  deriving DecidableEq, Repr

/-- Consume a literal prefix, returning the remainder. -/
def munchPrefix (pat s : Str) : Option Str :=
  if isPrefixL pat s then some (s.drop pat.length) else none

/-- Consume one-or-more whitespace (regex `\s+`), returning the
remainder after the maximal whitespace run. -/
def munchWs1 : Str → Option Str
  | [] => none
  | c :: t => if isWsC c then some (t.dropWhile isWsC) else none

/-- Consume a quote-delimited attribute value (regex `[^"]*"`),
returning the value and the remainder after the closing quote. -/
def takeQuoted (s : Str) : Option (Str × Str) :=
  let v := s.takeWhile (fun c => c != '"')
  match s.drop v.length with
  | '"' :: r => some (v, r)
  | _ => none

/-- Lazy body match (regex `([\s\S]*?)` followed by `close`): the text up
to the first occurrence of `close`, and the remainder after it. -/
def lazyUntil (close s : Str) : Option (Str × Str) :=
  (firstIdx close s).map fun i => (s.take i, s.drop (i + close.length))

/-- Result of matching one annotation tag at the head of the input. -/
structure TagMatch where
  comment : Str
  replaceWith : Option Str
  body : Str
  rest : Str
  deriving DecidableEq, Repr

/-- Operational model of matching the tag regex
`<TAG\s+comment="([^"]*)"(?:\s+replaceWith="([^"]*)")?>([\s\S]*?)</TAG>`
at the head of `s` (`allowRw` switches the optional `replaceWith` group
on; the patterns in `recoverOriginal`/`stripAnnotations` omit it for
`<ins>`). -/
def tryTag (tag : Str) (allowRw : Bool) (s : Str) : Option TagMatch := do
  let s1 ← munchPrefix ('<' :: tag) s
  let s2 ← munchWs1 s1
  let s3 ← munchPrefix (strL "comment=\"") s2
  let (com, s4) ← takeQuoted s3
  let (rw, s5) :=
    if allowRw then
      match munchWs1 s4 with
      | some s4a =>
        match munchPrefix (strL "replaceWith=\"") s4a with
        | some s4b =>
          match takeQuoted s4b with
          | some (v, s4c) => (some v, s4c)
          | none => ((none : Option Str), s4)
        | none => ((none : Option Str), s4)
      | none => ((none : Option Str), s4)
    else ((none : Option Str), s4)
  let s6 ← munchPrefix ['>'] s5
  let (body, rest) ← lazyUntil ('<' :: '/' :: (tag ++ ['>'])) s6
  return { comment := com, replaceWith := rw, body := body, rest := rest }

/-- One scanning step of `parseChanges`: try `<del …>` then `<ins …>`
at the head of the input (the regex alternation `(del|ins)`). -/
def tryChange (s : Str) : Option (ChangeRec × Str) :=
  match tryTag (strL "del") true s with
  | some m =>
    let len := s.length - m.rest.length
    some ({ comment := unescapeAttr m.comment,
            deleted := some m.body,
            inserted := m.replaceWith.map unescapeAttr,
            fullMatch := s.take len,
            startOffset := 0, endOffset := len }, m.rest)
  | none =>
    match tryTag (strL "ins") true s with
    | some m =>
      let len := s.length - m.rest.length
      some ({ comment := unescapeAttr m.comment,
              deleted := none,
              inserted := some m.body,
              fullMatch := s.take len,
              startOffset := 0, endOffset := len }, m.rest)
    | none => none

/-- Add `k` to the offsets of a change record. -/
def ChangeRec.shift (c : ChangeRec) (k : Nat) : ChangeRec :=
  { c with startOffset := c.startOffset + k, endOffset := c.endOffset + k }

/-- Fuelled scanner behind `parseChanges`: repeatedly try a match at the
current position, emitting matches and advancing one character on
failure (the `re.exec` loop with a `g`-flagged regex). -/
def parseChangesF : Nat → Nat → Str → List ChangeRec
  | 0, _, _ => []
  | _ + 1, _, [] => []
  | fuel + 1, pos, c :: cs =>
    match tryChange (c :: cs) with
    | some (ch, rest) =>
      ch.shift pos :: parseChangesF fuel (pos + ((c :: cs).length - rest.length)) rest
    | none => parseChangesF fuel (pos + 1) cs

/-- `parseChanges` from parse.ts. -/
def parseChanges (annotated : Str) : List ChangeRec :=
  parseChangesF annotated.length 0 annotated

/-- Fuelled global regex replace: at each position try `tm`; on a match
emit the replacement and continue after the match, otherwise keep the
character (`String.replace` with a `g`-flagged regex). -/
def rscanF (tm : Str → Option (Str × Str)) : Nat → Str → Str
  | 0, s => s
  | _ + 1, [] => []
  | fuel + 1, c :: cs =>
    match tm (c :: cs) with
    | some (rep, rest) => rep ++ rscanF tm fuel rest
    | none => c :: rscanF tm fuel cs

/-- The `<del …>…</del>` → body replacement pass of `recoverOriginal`
(and of `stripAnnotations` in reconstruct.ts). -/
def delToBody (s : Str) : Option (Str × Str) :=
  (tryTag (strL "del") true s).map fun m => (m.body, m.rest)

/-- The `<ins …>…</ins>` → empty replacement pass of `recoverOriginal`
(and of `stripAnnotations` in reconstruct.ts); its pattern has no
`replaceWith` group. -/
def insToEmpty (s : Str) : Option (Str × Str) :=
  (tryTag (strL "ins") false s).map fun m => ([], m.rest)

/-- `recoverOriginal` from parse.ts: restore every deletion body, then
drop every insertion span. -/
def recoverOriginal (annotated : Str) : Str :=
  let d := rscanF delToBody annotated.length annotated
  rscanF insToEmpty d.length d

/-- `stripAnnotations` from reconstruct.ts (same two regex passes as
`recoverOriginal`). -/
def stripAnnotations (text : Str) : Str := recoverOriginal text

/-- A problem reported by `validate` (the two error strings of
parse.ts, with the block index of the first one). -/
inductive VErr where
  | neither (i : Nat)
  | artifacts
  deriving DecidableEq, Repr

/-- `validate` from parse.ts. -/
def validate (annotated : Str) : List VErr :=
  let changes := parseChanges annotated
  let errs := changes.enum.filterMap fun ic =>
    if ic.2.deleted = none ∧ ic.2.inserted = none then some (VErr.neither ic.1) else none
  let recovered := recoverOriginal annotated
  errs ++
    (if containsSub (strL "<del ") recovered || containsSub (strL "<ins ") recovered then
      [VErr.artifacts]
    else [])

/-- The body of the `applyDecisions` loop from parse.ts: `i` is the
change index, `cursor` the current copy position. -/
def applyDecisionsGo (annotated : Str) (decisions : Nat → Option Bool) :
    Nat → Nat → List ChangeRec → Str
  | _, cursor, [] => annotated.drop cursor
  | i, cursor, ch :: rest =>
    sliceL annotated cursor ch.startOffset ++
    (match decisions i with
     | some true => ch.inserted.getD []
     | some false => ch.deleted.getD []
     | none => ch.fullMatch) ++
    applyDecisionsGo annotated decisions (i + 1) ch.endOffset rest

/-- `applyDecisions` from parse.ts: splice each parsed change per its
decision (accept = inserted, reject = deleted, undecided = keep the
tag). -/
def applyDecisions (annotated : Str) (decisions : Nat → Option Bool) : Str :=
  applyDecisionsGo annotated decisions 0 0 (parseChanges annotated)

/-! ### `mergeAdjacentAnnotations` and `reconstruct` from reconstruct.ts -/

/-- Continuation of the first merge regex after the del body:
`</del>` has been consumed; match `\s*<ins\s+comment="[^"]*">([\s\S]*?)</ins>`
and return the ins content and the remainder. -/
def insAfterDel (s : Str) : Option (Str × Str) := do
  let s1 := s.dropWhile isWsC
  let s2 ← munchPrefix (strL "<ins") s1
  let s3 ← munchWs1 s2
  let s4 ← munchPrefix (strL "comment=\"") s3
  let (_, s5) ← takeQuoted s4
  let s6 ← munchPrefix ['>'] s5
  lazyUntil (strL "</ins>") s6

/-- Lazy expansion of the del body in the first merge regex: try each
successive `</del>` occurrence until the `\s*<ins …>…</ins>`
continuation matches (regex backtracking of `([\s\S]*?)`).  Returns
(del content, ins content, remainder). -/
def delContentSearch : Nat → Str → Str → Option (Str × Str × Str)
  | 0, _, _ => none
  | fuel + 1, acc, s =>
    match firstIdx (strL "</del>") s with
    | none => none
    | some i =>
      let acc2 := acc ++ s.take i
      let after := s.drop (i + 6)
      match insAfterDel after with
      | some (insC, rest) => some (acc2, insC, rest)
      | none => delContentSearch fuel (acc2 ++ strL "</del>") after

/-- Match the first merge regex
`<del\s+comment="([^"]*)">([\s\S]*?)</del>\s*<ins\s+comment="[^"]*">([\s\S]*?)</ins>`
at the head of `s`, returning the replacement
`<del comment="$1" replaceWith="esc($3)">$2</del>` and the remainder. -/
def tryMergeDelIns (s : Str) : Option (Str × Str) := do
  let s1 ← munchPrefix (strL "<del") s
  let s2 ← munchWs1 s1
  let s3 ← munchPrefix (strL "comment=\"") s2
  let (com, s4) ← takeQuoted s3
  let s5 ← munchPrefix ['>'] s4
  let (d, insC, rest) ← delContentSearch s5.length [] s5
  return (strL "<del comment=\"" ++ com ++ strL "\" replaceWith=\"" ++
          escapeAttr insC ++ strL "\">" ++ d ++ strL "</del>", rest)

/-- Continuation of the second merge regex after the ins body:
`</ins>` has been consumed; match `\s*<del\s+comment="([^"]*)">([\s\S]*?)</del>`
and return (del comment, del content, remainder). -/
def delAfterIns (s : Str) : Option (Str × Str × Str) := do
  let s1 := s.dropWhile isWsC
  let s2 ← munchPrefix (strL "<del") s1
  let s3 ← munchWs1 s2
  let s4 ← munchPrefix (strL "comment=\"") s3
  let (com, s5) ← takeQuoted s4
  let s6 ← munchPrefix ['>'] s5
  let (d, rest) ← lazyUntil (strL "</del>") s6
  return (com, d, rest)

/-- Lazy expansion of the ins body in the second merge regex. Returns
(ins content, del comment, del content, remainder). -/
def insContentSearch : Nat → Str → Str → Option (Str × Str × Str × Str)
  | 0, _, _ => none
  | fuel + 1, acc, s =>
    match firstIdx (strL "</ins>") s with
    | none => none
    | some i =>
      let acc2 := acc ++ s.take i
      let after := s.drop (i + 6)
      match delAfterIns after with
      | some (com, d, rest) => some (acc2, com, d, rest)
      | none => insContentSearch fuel (acc2 ++ strL "</ins>") after

/-- Match the second merge regex
`<ins\s+comment="[^"]*">([\s\S]*?)</ins>\s*<del\s+comment="([^"]*)">([\s\S]*?)</del>`
at the head of `s`, returning the replacement and the remainder. -/
def tryMergeInsDel (s : Str) : Option (Str × Str) := do
  let s1 ← munchPrefix (strL "<ins") s
  let s2 ← munchWs1 s1
  let s3 ← munchPrefix (strL "comment=\"") s2
  let (_, s4) ← takeQuoted s3
  let s5 ← munchPrefix ['>'] s4
  let (insC, com, d, rest) ← insContentSearch s5.length [] s5
  return (strL "<del comment=\"" ++ com ++ strL "\" replaceWith=\"" ++
          escapeAttr insC ++ strL "\">" ++ d ++ strL "</del>", rest)

/-- `mergeAdjacentAnnotations` from reconstruct.ts: merge adjacent
`<del>+<ins>` pairs, then adjacent `<ins>+<del>` pairs, into a single
`<del … replaceWith="…">`. -/
def mergeAdjacentAnnotations (text : Str) : Str :=
  let t1 := rscanF tryMergeDelIns text.length text
  rscanF tryMergeInsDel t1.length t1

/-- A warning recorded by `reconstruct` in reconstruct.ts, tagged with
its 1-based block number. -/
inductive RWarn where
  | missing (n : Nat)
  | modifiedOutside (n : Nat)
  deriving DecidableEq, Repr

/-- Block number carried by a reconstruction warning. -/
def RWarn.num : RWarn → Nat
  | .missing n => n
  | .modifiedOutside n => n

/-- The block loop of `reconstruct` (reconstruct.ts), starting at block
number `n`: returns the result blocks and the warnings in order. -/
def reconstructBlocks (po : Nat → Option Str) : Nat → List Str → List Str × List RWarn
  | _, [] => ([], [])
  | n, b :: bs =>
    let r := reconstructBlocks po (n + 1) bs
    match po n with
    | none => (b :: r.1, RWarn.missing n :: r.2)
    | some mc =>
      if mc = strL "lgtm" then (b :: r.1, r.2)
      else
        let merged := mergeAdjacentAnnotations mc
        let stripped := stripAnnotations merged
        if stripped = b then (merged :: r.1, r.2)
        else (merged :: r.1, RWarn.modifiedOutside n :: r.2)

/-- `reconstruct` from reconstruct.ts: full-block mode reconstruction of
the annotated document from the per-block judgment map. -/
def reconstruct (po : Nat → Option Str) (frontmatter : Str) (originalBlocks : List Str) :
    Str × List RWarn :=
  let r := reconstructBlocks po 1 originalBlocks
  (frontmatter ++ List.intercalate (strL "\n\n") r.1, r.2)

/-! ### `spliceAnnotation` from the compact-mode reconstruction engine -/

/-- A warning recorded by the compact-mode splicer. -/
inductive SWarn where
  | delNotFound
  | anchorNotFound
  | noAnchor
  deriving DecidableEq, Repr

/-- First `/<del>([\s\S]*?)<\/del>/` match inside `annotation`: the
earliest `<del>` is used, its body running to the first later
`</del>`. -/
def tryInnerDel (s : Str) : Option Str :=
  (firstIdx (strL "<del>") s).bind fun p =>
    (lazyUntil (strL "</del>") (s.drop (p + 5))).map fun br => br.1

/-- `spliceAnnotation` from the compact-mode engine: place one
annotation inside the original block, anchored on the deletion body or,
for insertion-only tags, on the anchor phrase before the tag. -/
def spliceAnnot (original ann : Str) : Str × Option SWarn :=
  match tryInnerDel ann with
  | some delText =>
    match firstIdx delText original with
    | none => (original, some SWarn.delNotFound)
    | some idx =>
      (original.take idx ++ ann ++ original.drop (idx + delText.length), none)
  | none =>
    match firstIdx (strL "<strike") ann with
    | some si =>
      if si > 0 then
        let anchor := trimEndL (ann.take si)
        match firstIdx anchor original with
        | some ai =>
          let ip := ai + anchor.length
          (original.take ip ++ ' ' :: ann.drop si ++ original.drop ip, none)
        | none => (original, some SWarn.anchorNotFound)
      else (original ++ ' ' :: ann, some SWarn.noAnchor)
    | none => (original ++ ' ' :: ann, some SWarn.noAnchor)

/-! ### `splitIntoBlocks` from reconstruct.ts -/

/-- JS `split("\n")`: the pieces between newlines (`n` newlines give
`n + 1` pieces, never the empty list). -/
def splitLinesNl : Str → List Str
  | [] => [[]]
  | c :: cs =>
    if c = '\n' then [] :: splitLinesNl cs
    else
      match splitLinesNl cs with
      | l :: ls => (c :: l) :: ls
      | [] => [[c]]

/-- Join lines back with newlines (inverse of `splitLinesNl`). -/
def joinNl : List Str → Str
  | [] => []
  | [l] => l
  | l :: ls => l ++ '\n' :: joinNl ls

/-- The frontmatter match `/^(---\n[\s\S]*?\n---\n)/` of
`splitIntoBlocks`: the lazy body ends at the first `\n---\n` after the
opening `---\n`.  Returns (frontmatter, body). -/
def splitFrontmatter (md : Str) : Str × Str :=
  if isPrefixL (strL "---\n") md then
    match firstIdx (strL "\n---\n") (md.drop 4) with
    | some i => (md.take (4 + i + 5), md.drop (4 + i + 5))
    | none => ([], md)
  else ([], md)

/-- Loop state of `splitIntoBlocks`. -/
structure SplitSt where
  blocks : List Str
  current : Str
  inFence : Bool
  blankRun : Bool
  deriving Repr

/-- One iteration of the `splitIntoBlocks` line loop: toggle the fence
flag on a line starting ```` ``` ````, treat blank lines outside fences
as separators, flush the current block after a blank run, otherwise
append the line to the current block. -/
def splitStep (st : SplitSt) (line : Str) : SplitSt :=
  let inF := if isPrefixL (strL "```") line then !st.inFence else st.inFence
  if inF = false ∧ trimL line = [] then
    if trimL st.current ≠ [] then { st with inFence := inF, blankRun := true }
    else { st with inFence := inF }
  else
    if st.blankRun = true ∧ trimL st.current ≠ [] then
      { blocks := st.blocks ++ [trimEndL st.current], current := line,
        inFence := inF, blankRun := false }
    else
      { st with
        current := if st.current = [] then line else st.current ++ '\n' :: line,
        inFence := inF }

/-- `splitIntoBlocks` from reconstruct.ts: frontmatter plus the
fence-aware paragraph blocks of the body. -/
def splitIntoBlocks (markdown : Str) : Str × List Str :=
  let fm := splitFrontmatter markdown
  let fin := (splitLinesNl fm.2).foldl splitStep ⟨[], [], false, false⟩
  (fm.1, fin.blocks ++ if trimL fin.current ≠ [] then [trimEndL fin.current] else [])

/-! ### Rich segmentation state (proof device for the round-trip) -/

/-- Segmentation state refined with the full line decomposition: the
leading blank lines, the flushed groups with their separator lines, the
lines of the current block, and the pending blank run. -/
structure RichSt where
  leading : List Str
  groups : List (List Str × List Str)
  current : List Str
  pending : List Str
  inFence : Bool

/-- `splitStep` on the rich state. -/
def richStep (r : RichSt) (line : Str) : RichSt :=
  let inF := if isPrefixL (strL "```") line then !r.inFence else r.inFence
  if inF = false ∧ trimL line = [] then
    if trimL (joinNl r.current) ≠ [] then
      { r with inFence := inF, pending := r.pending ++ [line] }
    else { r with inFence := inF, leading := r.leading ++ [line] }
  else
    if r.pending ≠ [] ∧ trimL (joinNl r.current) ≠ [] then
      { leading := r.leading, groups := r.groups ++ [(r.current, r.pending)],
        current := [line], pending := [], inFence := inF }
    else { r with current := r.current ++ [line], inFence := inF }

/-- Abstraction from the rich state to the loop state of the code. -/
def absR (r : RichSt) : SplitSt :=
  { blocks := r.groups.map fun g => trimEndL (joinNl g.1),
    current := joinNl r.current,
    inFence := r.inFence,
    blankRun := !r.pending.isEmpty }

/-- All the lines a rich state accounts for, in order. -/
def flattenR (r : RichSt) : List Str :=
  r.leading ++ (r.groups.flatMap fun g => g.1 ++ g.2) ++ r.current ++ r.pending

/-- Invariant of the rich segmentation state. -/
def InvR (r : RichSt) : Prop :=
  (r.current = [] → r.pending = [] ∧ r.inFence = false ∧ r.groups = []) ∧
  (r.current ≠ [] → trimL (joinNl r.current) ≠ []) ∧
  (r.pending ≠ [] → r.inFence = false) ∧
  (∀ l ∈ r.leading, trimL l = []) ∧
  (∀ l ∈ r.pending, trimL l = []) ∧
  (∀ g ∈ r.groups, g.1 ≠ [] ∧ trimL (joinNl g.1) ≠ [] ∧ ∀ l ∈ g.2, trimL l = [])

/-! ### The streamed judgment parser (ai.ts) and `parseModelOutput` -/

/-- Judgment-assembly state shared by the streaming parser and
`parseModelOutput`: the block-number → judgment map and the block
currently being read. -/
structure PState where
  out : Nat → Option Str
  currentNum : Option Nat
  currentContent : Str

/-- `Map.set` on the judgment map. -/
def setOut (f : Nat → Option Str) (n : Nat) (v : Str) : Nat → Option Str :=
  fun k => if k = n then some v else f k

/-- Numeric value of a digit string (JS `parseInt(…, 10)` on `\d+`). -/
def natOfDigits (ds : Str) : Nat :=
  ds.foldl (fun n c => n * 10 + (c.toNat - '0'.toNat)) 0

/-- The plain numbered-line match `^(\d+)\s+(.*)` (reconstruct.ts:115
and the per-line dispatch of parse.ts:336): one-or-more digits, the
maximal one-or-more whitespace run, then the capture of `.*` — which,
without the `s` flag, excludes both `\n` and `\r`, so on a newline-free
line it runs up to the first carriage return. -/
def parseNumbered (line : Str) : Option (Nat × Str) :=
  let ds := line.takeWhile Char.isDigit
  if ds = [] then none
  else
    match munchWs1 (line.drop ds.length) with
    | some rest => some (natOfDigits ds, rest.takeWhile (fun c => c ≠ '\r'))
    | none => none

/-- The `s`-flagged numbered-line match `^(\d+)\s+(.*)/s` used only by
the stream-end finalization (parse.ts:358): with the flag, `.*` takes
the whole remainder, carriage returns included. -/
def parseNumberedS (line : Str) : Option (Nat × Str) :=
  let ds := line.takeWhile Char.isDigit
  if ds = [] then none
  else
    match munchWs1 (line.drop ds.length) with
    | some rest => some (natOfDigits ds, rest)
    | none => none

/-- Save the block being read into the map, if any (the repeated
"save last block" step of both parsers). -/
def finalSave (ps : PState) : Nat → Option Str :=
  match ps.currentNum with
  | some m => setOut ps.out m (trimL ps.currentContent)
  | none => ps.out

/-- One line of `parseModelOutput` (reconstruct.ts): a numbered line
saves the previous block and starts a new one; a non-blank unnumbered
line continues the current block. -/
def pmoLine (st : PState) (line : Str) : PState :=
  match parseNumbered line with
  | some (n, content) =>
    { out := match st.currentNum with
             | some m => setOut st.out m (trimL st.currentContent)
             | none => st.out,
      currentNum := some n, currentContent := content }
  | none =>
    match st.currentNum with
    | some _ =>
      if trimL line ≠ [] then { st with currentContent := st.currentContent ++ '\n' :: line }
      else st
    | none => st

/-- `parseModelOutput` from reconstruct.ts. -/
def parseModelOutput (output : Str) : Nat → Option Str :=
  finalSave ((splitLinesNl output).foldl pmoLine ⟨fun _ => none, none, []⟩)

/-- One complete line of the streaming parser of ai.ts (blank lines are
skipped up front; otherwise as `pmoLine`). -/
def streamLine (st : PState) (line : Str) : PState :=
  if trimL line = [] then st
  else
    match parseNumbered line with
    | some (n, content) =>
      { out := match st.currentNum with
               | some m => setOut st.out m (trimL st.currentContent)
               | none => st.out,
        currentNum := some n, currentContent := content }
    | none =>
      match st.currentNum with
      | some _ => { st with currentContent := st.currentContent ++ '\n' :: line }
      | none => st

/-- Streaming-parser state: judgment state plus the fragment buffer
holding the partial trailing line. -/
structure StreamSt where
  ps : PState
  buf : Str

/-- The `while ((newlineIdx = textBuffer.indexOf("\n")) !== -1)` loop:
dispatch complete lines from the buffer. -/
def drainLines : Nat → PState → Str → PState × Str
  | 0, ps, buf => (ps, buf)
  | fuel + 1, ps, buf =>
    match firstIdx ['\n'] buf with
    | none => (ps, buf)
    | some i => drainLines fuel (streamLine ps (buf.take i)) (buf.drop (i + 1))

/-- Deliver one text fragment to the streaming parser: append it to the
buffer and dispatch every complete line. -/
def streamFeed (st : StreamSt) (frag : Str) : StreamSt :=
  let buf := st.buf ++ frag
  let r := drainLines buf.length st.ps buf
  ⟨r.1, r.2⟩

/-- The stream-end finalization step for a non-blank buffered partial
line (parse.ts:356-371): like a numbered-line dispatch but with the
`s`-flagged match, whose capture keeps carriage returns. -/
def streamFinal (st : PState) (line : Str) : PState :=
  match parseNumberedS line with
  | some (n, content) =>
    { out := match st.currentNum with
             | some m => setOut st.out m (trimL st.currentContent)
             | none => st.out,
      currentNum := some n, currentContent := content }
  | none =>
    match st.currentNum with
    | some _ => { st with currentContent := st.currentContent ++ '\n' :: line }
    | none => st

/-- Stream end: finalize a non-blank buffered partial line as the last
judgment via the `s`-flagged match, then save the last block. -/
def streamFinish (st : StreamSt) : Nat → Option Str :=
  finalSave (if trimL st.buf = [] then st.ps else streamFinal st.ps st.buf)

/-- The judgment map assembled by the streaming parser over a whole
fragment sequence. -/
def streamRun (frags : List Str) : Nat → Option Str :=
  streamFinish (frags.foldl streamFeed ⟨⟨fun _ => none, none, []⟩, []⟩)

/-- Character-level view of feeding the streaming parser (proof
device): a newline dispatches the buffered line, any other character
joins the buffer. -/
def charStep (st : PState × Str) (c : Char) : PState × Str :=
  if c = '\n' then (streamLine st.1 st.2, []) else (st.1, st.2 ++ [c])

/-- Prepend a partial line to the first of a list of lines. -/
def consHead (buf : Str) : List Str → List Str
  | [] => [buf]
  | l :: ls => (buf ++ l) :: ls

/-! ### Derived annotated texts

An annotated text of the del/ins grammar is derived from an original by
wrapping deleted stretches in `<del …>` spans (optionally carrying a
`replaceWith` attribute) and inserting `<ins …>` spans, leaving the
surrounding text as separating segments. -/

/-- One change span of the grammar: a deletion span (with optional
inline replacement) or an insertion span. -/
inductive SpanSpec where
  | del (comment : Str) (rw : Option Str) (body : Str)
  | ins (comment : Str) (body : Str)
  deriving DecidableEq, Repr

/-- Serialize a change span to its wire form. -/
def renderSpan : SpanSpec → Str
  | .del com rw body =>
    strL "<del comment=\"" ++ com ++
    (match rw with
     | some v => strL "\" replaceWith=\"" ++ v
     | none => []) ++
    strL "\">" ++ body ++ strL "</del>"
  | .ins com body =>
    strL "<ins comment=\"" ++ com ++ strL "\">" ++ body ++ strL "</ins>"

/-- Deletion content of a span: what rejecting it restores. -/
def delContentOf : SpanSpec → Str
  | .del _ _ body => body
  | .ins _ _ => []

/-- Insertion content of a span as spliced on accept
(`change.inserted ?? ""`). -/
def insContentOf : SpanSpec → Str
  | .del _ rw _ => (rw.map unescapeAttr).getD []
  | .ins _ body => body

/-- Resolve one span per a decision: accept splices the insertion
content, reject the deletion content. -/
def resolveSpecOne (sp : SpanSpec) (acc : Bool) : Str :=
  if acc then insContentOf sp else delContentOf sp

/-- A derived annotated text: the leading segment, then each rendered
span followed by its segment. -/
def interleaveSpans : Str → List (SpanSpec × Str) → Str
  | s0, [] => s0
  | s0, (sp, s) :: rest => s0 ++ renderSpan sp ++ interleaveSpans s rest

/-- The pre-annotation original of a derived text: every span replaced
by its deletion content. -/
def recoverSpec : Str → List (SpanSpec × Str) → Str
  | s0, [] => s0
  | s0, (sp, s) :: rest => s0 ++ delContentOf sp ++ recoverSpec s rest

/-- Result of the `<del>` pass on a derived text: deletion spans merge
into the segments, insertion spans remain. -/
def toInsOnly : Str → List (SpanSpec × Str) → Str × List (SpanSpec × Str)
  | s0, [] => (s0, [])
  | s0, (.del _ _ b, s) :: rest => toInsOnly (s0 ++ b ++ s) rest
  | s0, (.ins c b, s) :: rest =>
    let r := toInsOnly s rest
    (s0, (SpanSpec.ins c b, r.1) :: r.2)

/-- Plain concatenation of the segments of a derived text. -/
def segConcat : Str → List (SpanSpec × Str) → Str
  | s0, [] => s0
  | s0, (_, s) :: rest => s0 ++ segConcat s rest

/-- A string free of tag-opening characters. -/
def cleanStr (s : Str) : Prop := '<' ∉ s

/-- A well-formed attribute value: no tag opener and no raw quote. -/
def attrOk (s : Str) : Prop := '<' ∉ s ∧ '"' ∉ s

/-- Well-formedness of one span: attributes are quote-free and no
component smuggles in a tag opener. -/
def SpanSpec.wf : SpanSpec → Prop
  | .del com rw body => attrOk com ∧ (∀ v, rw = some v → attrOk v) ∧ cleanStr body
  | .ins com body => attrOk com ∧ cleanStr body

/-- Well-formedness of a derived text: every segment is tag-free and
every span well-formed. -/
def wfDerived (s0 : Str) (chs : List (SpanSpec × Str)) : Prop :=
  cleanStr s0 ∧ ∀ p ∈ chs, SpanSpec.wf p.1 ∧ cleanStr p.2

/-- The change record `parseChanges` produces for a span matched at
offset `p`. -/
def chgOf (sp : SpanSpec) (p : Nat) : ChangeRec :=
  match sp with
  | .del com rw body =>
    { comment := unescapeAttr com, deleted := some body,
      inserted := rw.map unescapeAttr, fullMatch := renderSpan sp,
      startOffset := p, endOffset := p + (renderSpan sp).length }
  | .ins com body =>
    { comment := unescapeAttr com, deleted := none, inserted := some body,
      fullMatch := renderSpan sp, startOffset := p,
      endOffset := p + (renderSpan sp).length }

/-- The change list `parseChanges` produces on a derived text starting
at offset `pos`. -/
def parseSpec : Nat → Str → List (SpanSpec × Str) → List ChangeRec
  | _, _, [] => []
  | pos, s0, (sp, s) :: rest =>
    chgOf sp (pos + s0.length)
      :: parseSpec (pos + s0.length + (renderSpan sp).length) s rest

/-- Resolve the `i`-th currently parsed change of an annotated text by
splicing its insertion (accept) or deletion (reject) content over its
span, as `acceptChange`/`rejectChange` and `applyDecisions` do. -/
def resolveStep (a : Str) (i : Nat) (acc : Bool) : Str :=
  match (parseChanges a)[i]? with
  | some ch =>
    a.take ch.startOffset ++
    (if acc then ch.inserted.getD [] else ch.deleted.getD []) ++
    a.drop ch.endOffset
  | none => a

/-- Resolve a sequence of (current index, decision) pairs one at a
time, re-parsing after each splice. -/
def resolveSeq (a : Str) (ops : List (Nat × Bool)) : Str :=
  ops.foldl (fun acc p => resolveStep acc p.1 p.2) a

/-- Independent resolution of every span of a derived text against the
original, by a decision list aligned with the spans. -/
def resolveAllSpec : Str → List (SpanSpec × Str) → List Bool → Str
  | s0, [], _ => s0
  | s0, (sp, s) :: rest, ds =>
    s0 ++ resolveSpecOne sp (ds.headD false) ++ resolveAllSpec s rest ds.tail

/-- Fold the `i`-th span into its neighbouring segments per its
decision, leaving the other spans pending. -/
def mergeAt : Str → List (SpanSpec × Str) → Nat → Bool → Str × List (SpanSpec × Str)
  | s0, [], _, _ => (s0, [])
  | s0, (sp, s) :: rest, 0, d => (s0 ++ resolveSpecOne sp d ++ s, rest)
  | s0, (sp, s) :: rest, i + 1, d =>
    let r := mergeAt s rest i d
    (s0, (sp, r.1) :: r.2)

/-- Offset of the `i`-th span inside a derived text: the leading
segment plus every earlier rendered span and its trailing segment. -/
def prefLen : Str → List (SpanSpec × Str) → Nat → Nat
  | s0, _, 0 => s0.length
  | s0, [], _ + 1 => s0.length
  | s0, (sp, s) :: rest, i + 1 =>
    s0.length + (renderSpan sp).length + prefLen s rest i

/-- A complete resolution schedule over `n` pending changes: each step
names a position in the current change list together with its decision,
every change is resolved exactly once, and the decision applied to a
change is the one assigned to it in the aligned decision list. -/
inductive ValidSeq : Nat → List Bool → List (Nat × Bool) → Prop where
  | nil : ValidSeq 0 [] []
  | step {n : Nat} {ds : List Bool} {ops : List (Nat × Bool)}
      {i : Nat} {d : Bool} :
      i < n → ds[i]? = some d →
      ValidSeq (n - 1) (ds.eraseIdx i) ops →
      ValidSeq n ds ((i, d) :: ops)

end StrikeMD

namespace StrikeMD

/-! ## Lemmas about attribute escaping (claim C9) -/

theorem escapeAttr_eq_escDirect (s : Str) : escapeAttr s = escDirect s := by
  induction s with
  | nil => rfl
  | cons c t ih =>
    by_cases h : c = '&'
    · subst h
      simp only [escapeAttr] at *
      simp [replaceAmp, replaceQuote, escDirect, ih]
    · by_cases h2 : c = '"'
      · subst h2
        simp only [escapeAttr] at *
        simp [replaceAmp, replaceQuote, escDirect, h, ih]
      · simp only [escapeAttr] at *
        simp [replaceAmp, replaceQuote, escDirect, h, h2, ih]

theorem unrepQuot_cons_ne {c : Char} (t : Str) (hc : c ≠ '&') :
    unrepQuot (c :: t) = c :: unrepQuot t := by
  rw [unrepQuot.eq_def]
  split
  · rename_i heq
    injection heq with h1 _
    exact absurd h1 hc
  · rename_i heq
    injection heq with h1 h2
    rw [h1, h2]
  · rename_i heq; cases heq

theorem unrepAmp_cons_ne {c : Char} (t : Str) (hc : c ≠ '&') :
    unrepAmp (c :: t) = c :: unrepAmp t := by
  rw [unrepAmp.eq_def]
  split
  · rename_i heq
    injection heq with h1 _
    exact absurd h1 hc
  · rename_i heq
    injection heq with h1 h2
    rw [h1, h2]
  · rename_i heq; cases heq

theorem unescape_escDirect (s : Str) : unescapeAttr (escDirect s) = s := by
  induction s with
  | nil => rfl
  | cons c t ih =>
    by_cases h : c = '&'
    · subst h
      have e1 : escDirect ('&' :: t) = '&' :: 'a' :: 'm' :: 'p' :: ';' :: escDirect t := by
        simp [escDirect]
      rw [e1]
      simp only [unescapeAttr] at *
      rw [show unrepQuot ('&' :: 'a' :: 'm' :: 'p' :: ';' :: escDirect t)
            = '&' :: 'a' :: 'm' :: 'p' :: ';' :: unrepQuot (escDirect t) by
          simp [unrepQuot]]
      rw [show unrepAmp ('&' :: 'a' :: 'm' :: 'p' :: ';' :: unrepQuot (escDirect t))
            = '&' :: unrepAmp (unrepQuot (escDirect t)) by
          simp [unrepAmp]]
      rw [ih]
    · by_cases h2 : c = '"'
      · subst h2
        have e1 : escDirect ('"' :: t) = '&' :: 'q' :: 'u' :: 'o' :: 't' :: ';' :: escDirect t := by
          simp [escDirect]
        rw [e1]
        simp only [unescapeAttr] at *
        rw [show unrepQuot ('&' :: 'q' :: 'u' :: 'o' :: 't' :: ';' :: escDirect t)
              = '"' :: unrepQuot (escDirect t) by simp [unrepQuot]]
        rw [unrepAmp_cons_ne _ (by decide), ih]
      · have e1 : escDirect (c :: t) = c :: escDirect t := by
          simp [escDirect, h, h2]
        rw [e1]
        simp only [unescapeAttr] at *
        rw [unrepQuot_cons_ne _ h, unrepAmp_cons_ne _ h, ih]

/-- C9: attribute escaping round-trips — writing an attribute value with
`escapeAttr` (escape `&` to `&amp;`, `"` to `&quot;`) and reading it back
with the unescaping performed by `parseChanges` (`&quot;` to `"`,
`&amp;` to `&`) is the identity on every string. -/
theorem C9_escape_roundtrip (s : Str) :
    unescapeAttr (escapeAttr s) = s := by
  rw [escapeAttr_eq_escDirect]; exact unescape_escDirect s

/-! ## Claim C5: `validate` on an empty deletion span -/

/-- C5: on the deletion-span with empty body, no `replace-with` and no
sibling insertion, `validate` reports no problem at all (not one):
`parseChanges` parses the empty body as the empty-string deletion
(`deleted = some ""`, not `null`), so the "neither deletion nor
insertion" check cannot fire. -/
theorem C5_validate_empty_deletion :
    validate (strL "<del comment=\"c\"></del>") = [] ∧
    (parseChanges (strL "<del comment=\"c\"></del>")).map ChangeRec.deleted = [some []] := by
  decide

/-! ## Claim C10: normalization versus recovery -/

/-- C10: `mergeAdjacentAnnotations` does not preserve the recovered
text: merging a `<del>` and `<ins>` pair separated by one space drops
the space, so `stripAnnotations` of the merged block no longer equals
the stripped input block, and `reconstruct`'s own verification then
records a spurious `modifiedOutside` warning for a judgment that
stripped correctly before merging. -/
theorem C10_merge_breaks_strip :
    stripAnnotations (strL "<del comment=\"a\">X</del> <ins comment=\"b\">Z</ins> rest")
      = strL "X  rest" ∧
    stripAnnotations (mergeAdjacentAnnotations
        (strL "<del comment=\"a\">X</del> <ins comment=\"b\">Z</ins> rest"))
      ≠ strL "X  rest" ∧
    (reconstruct
        (fun n => if n = 1 then
            some (strL "<del comment=\"a\">X</del> <ins comment=\"b\">Z</ins> rest")
          else none)
        [] [strL "X  rest"]).2 = [RWarn.modifiedOutside 1] := by
  exact ⟨by decide, by decide, by decide⟩

/-! ## Claim C4: compact-mode splicing never guesses a position -/

/-- C4: in compact-mode reconstruction, if the deletion body of an
annotation cannot be found in the block, or an insertion-only
annotation's anchor phrase cannot be found, `spliceAnnot` returns the
block unmodified together with a warning. -/
theorem C4_splice_never_guesses :
    (∀ (original ann d : Str), tryInnerDel ann = some d →
      firstIdx d original = none →
      spliceAnnot original ann = (original, some SWarn.delNotFound)) ∧
    (∀ (original ann : Str) (si : Nat), tryInnerDel ann = none →
      firstIdx (strL "<strike") ann = some si → 0 < si →
      firstIdx (trimEndL (ann.take si)) original = none →
      spliceAnnot original ann = (original, some SWarn.anchorNotFound)) := by
  constructor
  · intro original ann d h1 h2
    simp [spliceAnnot, h1, h2]
  · intro original ann si h1 h2 h3 h4
    simp [spliceAnnot, h1, h2, h3, h4]

/-- Closed instance of C4 at concrete inputs: a deletion body `zzz`
absent from the block, and an anchor phrase `anchor text` absent from
the block. -/
theorem C4_splice_never_guesses_witness :
    spliceAnnot (strL "hello world")
        (strL "<strike comment=\"c\"><del>zzz</del></strike>")
      = (strL "hello world", some SWarn.delNotFound) ∧
    spliceAnnot (strL "hello world")
        (strL "anchor text <strike comment=\"c\"><ins>new</ins></strike>")
      = (strL "hello world", some SWarn.anchorNotFound) :=
  ⟨C4_splice_never_guesses.1 _ _ (strL "zzz") (by decide) (by decide),
   C4_splice_never_guesses.2 _ _ 12 (by decide) (by decide) (by decide) (by decide)⟩

/-! ## Claim C3: full-block reconstruction is fail-open -/

theorem reconstructBlocks_length (po : Nat → Option Str) :
    ∀ (bs : List Str) (n : Nat), (reconstructBlocks po n bs).1.length = bs.length := by
  intro bs
  induction bs with
  | nil => intro n; rfl
  | cons b bs ih =>
    intro n
    simp only [reconstructBlocks]
    cases h : po n with
    | none => simp [ih]
    | some mc =>
      by_cases hl : mc = strL "lgtm"
      · simp [hl, ih]
      · by_cases hs : stripAnnotations (mergeAdjacentAnnotations mc) = b
        · simp [hl, hs, ih]
        · simp [hl, hs, ih]

theorem reconstructBlocks_warn_range (po : Nat → Option Str) :
    ∀ (bs : List Str) (n : Nat) (w : RWarn), w ∈ (reconstructBlocks po n bs).2 →
      n ≤ w.num ∧ w.num < n + bs.length := by
  intro bs
  induction bs with
  | nil => intro n w hw; cases hw
  | cons b bs ih =>
    intro n w hw
    simp only [reconstructBlocks] at hw
    have step : w = RWarn.missing n ∨ w = RWarn.modifiedOutside n ∨
        w ∈ (reconstructBlocks po (n + 1) bs).2 := by
      cases h : po n with
      | none =>
        rw [h] at hw
        dsimp only at hw
        rcases List.mem_cons.mp hw with h1 | h1
        · exact Or.inl h1
        · exact Or.inr (Or.inr h1)
      | some mc =>
        rw [h] at hw
        dsimp only at hw
        by_cases hl : mc = strL "lgtm"
        · rw [if_pos hl] at hw
          exact Or.inr (Or.inr hw)
        · rw [if_neg hl] at hw
          by_cases hs : stripAnnotations (mergeAdjacentAnnotations mc) = b
          · rw [if_pos hs] at hw
            exact Or.inr (Or.inr hw)
          · rw [if_neg hs] at hw
            rcases List.mem_cons.mp hw with h1 | h1
            · exact Or.inr (Or.inl h1)
            · exact Or.inr (Or.inr h1)
    rcases step with h1 | h1 | h1
    · subst h1; simp only [RWarn.num, List.length_cons]; omega
    · subst h1; simp only [RWarn.num, List.length_cons]; omega
    · have := ih (n + 1) w h1
      simp only [List.length_cons]
      omega

theorem reconstructBlocks_cons (po : Nat → Option Str) (b : Str) (bs : List Str) (n : Nat) :
    ∃ hd ws0, reconstructBlocks po n (b :: bs) =
      (hd :: (reconstructBlocks po (n + 1) bs).1, ws0 ++ (reconstructBlocks po (n + 1) bs).2) ∧
    (∀ w ∈ ws0, w.num = n) ∧
    (po n = none → hd = b ∧ ws0 = [RWarn.missing n]) ∧
    (po n = some (strL "lgtm") → hd = b ∧ ws0 = []) := by
  cases h : po n with
  | none =>
    refine ⟨b, [RWarn.missing n], ?_, ?_, ?_, ?_⟩
    · simp [reconstructBlocks, h]
    · intro w hw; simp at hw; subst hw; rfl
    · intro _; exact ⟨rfl, rfl⟩
    · intro h2; simp [h] at h2
  | some mc =>
    by_cases hl : mc = strL "lgtm"
    · refine ⟨b, [], ?_, ?_, ?_, ?_⟩
      · simp [reconstructBlocks, h, hl]
      · intro w hw; cases hw
      · intro h2; simp [h] at h2
      · intro _; exact ⟨rfl, rfl⟩
    · by_cases hs : stripAnnotations (mergeAdjacentAnnotations mc) = b
      · refine ⟨mergeAdjacentAnnotations mc, [], ?_, ?_, ?_, ?_⟩
        · simp [reconstructBlocks, h, hl, hs]
        · intro w hw; cases hw
        · intro h2; simp [h] at h2
        · intro h2; simp [h] at h2; exact absurd h2 hl
      · refine ⟨mergeAdjacentAnnotations mc, [RWarn.modifiedOutside n], ?_, ?_, ?_, ?_⟩
        · simp [reconstructBlocks, h, hl, hs]
        · intro w hw; simp at hw; subst hw; rfl
        · intro h2; simp [h] at h2
        · intro h2; simp [h] at h2; exact absurd h2 hl

theorem reconstructBlocks_missing (po : Nat → Option Str) :
    ∀ (bs : List Str) (n k : Nat), k < bs.length → po (n + k) = none →
      (reconstructBlocks po n bs).1[k]? = bs[k]? ∧
      (reconstructBlocks po n bs).2.filter (fun w => w.num == n + k) = [RWarn.missing (n + k)] := by
  intro bs
  induction bs with
  | nil => intro n k hk _; cases hk
  | cons b bs ih =>
    intro n k hk hpo
    obtain ⟨hd, ws0, heq, hnum, hnone, _⟩ := reconstructBlocks_cons po b bs n
    cases k with
    | zero =>
      simp only [Nat.add_zero] at hpo
      obtain ⟨hhd, hws0⟩ := hnone hpo
      subst hhd; subst hws0
      rw [heq]
      constructor
      · simp
      · simp only [Nat.add_zero, List.filter_append, List.filter_cons, List.filter_nil]
        have hz : ((RWarn.missing n).num == n) = true := by simp [RWarn.num]
        rw [if_pos hz]
        have : (reconstructBlocks po (n + 1) bs).2.filter (fun w => w.num == n) = [] := by
          rw [List.filter_eq_nil]
          intro w hw
          have := (reconstructBlocks_warn_range po bs (n + 1) w hw).1
          simp only [beq_iff_eq]
          omega
        rw [this]
        rfl
    | succ k =>
      have hpo' : po ((n + 1) + k) = none := by
        rw [show (n + 1) + k = n + (k + 1) by omega]
        exact hpo
      obtain ⟨ih1, ih2⟩ := ih (n + 1) k (by simpa using Nat.lt_of_succ_lt_succ hk) hpo'
      rw [heq]
      constructor
      · simpa using ih1
      · simp only [List.filter_append]
        have hws0 : ws0.filter (fun w => w.num == n + (k + 1)) = [] := by
          rw [List.filter_eq_nil]
          intro w hw
          have := hnum w hw
          simp only [beq_iff_eq]
          omega
        rw [hws0]
        rw [show n + (k + 1) = (n + 1) + k by omega]
        simpa using ih2

theorem reconstructBlocks_lgtm (po : Nat → Option Str) :
    ∀ (bs : List Str) (n k : Nat), k < bs.length → po (n + k) = some (strL "lgtm") →
      (reconstructBlocks po n bs).1[k]? = bs[k]? ∧
      (reconstructBlocks po n bs).2.filter (fun w => w.num == n + k) = [] := by
  intro bs
  induction bs with
  | nil => intro n k hk _; cases hk
  | cons b bs ih =>
    intro n k hk hpo
    obtain ⟨hd, ws0, heq, hnum, _, hlg⟩ := reconstructBlocks_cons po b bs n
    cases k with
    | zero =>
      simp only [Nat.add_zero] at hpo
      obtain ⟨hhd, hws0⟩ := hlg hpo
      subst hhd; subst hws0
      rw [heq]
      refine ⟨by simp, ?_⟩
      simp only [Nat.add_zero, List.nil_append]
      rw [List.filter_eq_nil]
      intro w hw
      have := (reconstructBlocks_warn_range po bs (n + 1) w hw).1
      simp only [beq_iff_eq]
      omega
    | succ k =>
      have hpo' : po ((n + 1) + k) = some (strL "lgtm") := by
        rw [show (n + 1) + k = n + (k + 1) by omega]
        exact hpo
      obtain ⟨ih1, ih2⟩ := ih (n + 1) k (by simpa using Nat.lt_of_succ_lt_succ hk) hpo'
      rw [heq]
      constructor
      · simpa using ih1
      · simp only [List.filter_append]
        have hws0 : ws0.filter (fun w => w.num == n + (k + 1)) = [] := by
          rw [List.filter_eq_nil]
          intro w hw
          have := hnum w hw
          simp only [beq_iff_eq]
          omega
        rw [hws0]
        rw [show n + (k + 1) = (n + 1) + k by omega]
        simpa using ih2

/-- C3: full-block reconstruction is fail-open — the result has one
block per original block (nothing is dropped) and the annotated output
joins exactly those blocks; a block whose judgment is missing from the
map contributes its original text and exactly one warning (the
`missing` one); a block judged `lgtm` contributes its original text
verbatim and no warning mentions it. -/
theorem C3_reconstruct_failopen (po : Nat → Option Str) (fm : Str) (blocks : List Str) :
    (reconstructBlocks po 1 blocks).1.length = blocks.length ∧
    (reconstruct po fm blocks).1
      = fm ++ List.intercalate (strL "\n\n") (reconstructBlocks po 1 blocks).1 ∧
    (∀ k, k < blocks.length → po (k + 1) = none →
      (reconstructBlocks po 1 blocks).1[k]? = blocks[k]? ∧
      (reconstruct po fm blocks).2.filter (fun w => w.num == k + 1)
        = [RWarn.missing (k + 1)]) ∧
    (∀ k, k < blocks.length → po (k + 1) = some (strL "lgtm") →
      (reconstructBlocks po 1 blocks).1[k]? = blocks[k]? ∧
      (reconstruct po fm blocks).2.filter (fun w => w.num == k + 1) = []) := by
  refine ⟨reconstructBlocks_length po blocks 1, rfl, ?_, ?_⟩
  · intro k hk hpo
    have h := reconstructBlocks_missing po blocks 1 k hk
      (by rw [Nat.add_comm]; exact hpo)
    rw [Nat.add_comm 1 k] at h
    exact h
  · intro k hk hpo
    have h := reconstructBlocks_lgtm po blocks 1 k hk
      (by rw [Nat.add_comm]; exact hpo)
    rw [Nat.add_comm 1 k] at h
    exact h

/-! ## Whitespace, lines and joins -/

theorem trimEndL_eq_nil_iff (s : Str) : trimEndL s = [] ↔ ∀ c ∈ s, isWsC c := by
  unfold trimEndL
  rw [List.reverse_eq_nil_iff, List.dropWhile_eq_nil_iff]
  constructor
  · intro h c hc; exact h c (List.mem_reverse.mpr hc)
  · intro h c hc; exact h c (List.mem_reverse.mp hc)

theorem forall_mem_dropWhile_iff {p : Char → Bool} (s : Str) :
    (∀ c ∈ s.dropWhile p, p c) ↔ ∀ c ∈ s, p c := by
  constructor
  · intro h c hc
    rw [← List.takeWhile_append_dropWhile (p := p) (l := s)] at hc
    rcases List.mem_append.mp hc with h1 | h1
    · exact List.mem_takeWhile_imp h1
    · exact h c h1
  · intro h c hc
    exact h c ((List.dropWhile_sublist _).subset hc)

theorem trimL_eq_nil_iff (s : Str) : trimL s = [] ↔ ∀ c ∈ s, isWsC c := by
  unfold trimL trimStartL
  rw [trimEndL_eq_nil_iff]
  exact forall_mem_dropWhile_iff s

theorem trimL_append_left_ne (s t : Str) (h : trimL s ≠ []) : trimL (s ++ t) ≠ [] := by
  intro hc
  rw [trimL_eq_nil_iff] at hc
  exact h (by rw [trimL_eq_nil_iff]; intro c hcs; exact hc c (List.mem_append_left t hcs))

theorem dropWhile_self_idem {p : Char → Bool} (s : Str) :
    (s.dropWhile p).dropWhile p = s.dropWhile p := by
  induction s with
  | nil => rfl
  | cons c t ih =>
    by_cases h : p c
    · simp [List.dropWhile_cons, h, ih]
    · simp [List.dropWhile_cons, h]

theorem trimEndL_idem (s : Str) : trimEndL (trimEndL s) = trimEndL s := by
  unfold trimEndL
  rw [List.reverse_reverse, dropWhile_self_idem]

theorem mem_trimEndL_subset {c : Char} {s : Str} (h : c ∈ trimEndL s) : c ∈ s := by
  unfold trimEndL at h
  rw [List.mem_reverse] at h
  exact List.mem_reverse.mp ((List.dropWhile_sublist _).subset h)

theorem trimL_trimEndL_eq_nil_iff (s : Str) : trimL (trimEndL s) = [] ↔ trimL s = [] := by
  rw [trimL_eq_nil_iff, trimL_eq_nil_iff]
  constructor
  · intro h c hc
    have hsplit : s.reverse = s.reverse.takeWhile isWsC ++ s.reverse.dropWhile isWsC :=
      (List.takeWhile_append_dropWhile isWsC s.reverse).symm
    have hc' : c ∈ s.reverse := List.mem_reverse.mpr hc
    rw [hsplit] at hc'
    rcases List.mem_append.mp hc' with h1 | h1
    · exact List.mem_takeWhile_imp h1
    · exact h c (by unfold trimEndL; exact List.mem_reverse.mpr h1)
  · intro h c hc
    exact h c (mem_trimEndL_subset hc)

theorem splitLinesNl_ne_nil (s : Str) : splitLinesNl s ≠ [] := by
  cases s with
  | nil => simp [splitLinesNl]
  | cons c cs =>
    rw [splitLinesNl]
    by_cases h : c = '\n'
    · simp [h]
    · rw [if_neg h]
      cases hs : splitLinesNl cs with
      | nil => simp
      | cons l ls => simp

theorem joinNl_cons (l : Str) (ls : List Str) (h : ls ≠ []) :
    joinNl (l :: ls) = l ++ '\n' :: joinNl ls := by
  cases ls with
  | nil => exact absurd rfl h
  | cons m ms => rfl

theorem joinNl_splitLinesNl (s : Str) : joinNl (splitLinesNl s) = s := by
  induction s with
  | nil => rfl
  | cons c cs ih =>
    rw [splitLinesNl]
    by_cases h : c = '\n'
    · rw [if_pos h, joinNl_cons _ _ (splitLinesNl_ne_nil cs), ih, h]
      rfl
    · rw [if_neg h]
      cases hs : splitLinesNl cs with
      | nil => exact absurd hs (splitLinesNl_ne_nil cs)
      | cons l ls =>
        rw [hs] at ih
        cases ls with
        | nil =>
          simp only [joinNl] at ih ⊢
          rw [ih]
        | cons m ms =>
          rw [joinNl_cons _ _ (show m :: ms ≠ [] by simp)]
          rw [joinNl_cons _ _ (show m :: ms ≠ [] by simp)] at ih
          simp only [List.cons_append]
          rw [ih]

theorem joinNl_append_singleton (ls : List Str) (x : Str) (h : ls ≠ []) :
    joinNl (ls ++ [x]) = joinNl ls ++ '\n' :: x := by
  induction ls with
  | nil => exact absurd rfl h
  | cons l ls ih =>
    cases ls with
    | nil => rfl
    | cons m ms =>
      rw [List.cons_append, joinNl_cons _ _ (by simp),
          joinNl_cons _ _ (by simp), ih (by simp)]
      simp [List.append_assoc]

/-! ## The segmentation simulation (claims C7 and C8) -/

theorem backtick_prefix_not_blank (line : Str)
    (h : isPrefixL (strL "```") line = true) : trimL line ≠ [] := by
  cases line with
  | nil => simp [isPrefixL, strL] at h
  | cons c t =>
    simp only [strL, isPrefixL, Bool.and_eq_true, decide_eq_true_eq] at h
    intro hb
    rw [trimL_eq_nil_iff] at hb
    have := hb c (List.mem_cons_self c t)
    rw [← h.1] at this
    simp [isWsC] at this

theorem trim_ne_of_trim_join_ne (cur : List Str)
    (h : trimL (joinNl cur) ≠ []) : cur ≠ [] := by
  intro hc; subst hc; exact h rfl

theorem joinNl_eq_nil_of_nil (cur : List Str) (h : cur = []) : joinNl cur = [] := by
  subst h; rfl

theorem not_isEmpty_of_ne_nil {α : Type} {l : List α} (h : l ≠ []) :
    (!l.isEmpty) = true := by
  cases l with
  | nil => exact absurd rfl h
  | cons a t => rfl

theorem richStep_spec (r : RichSt) (line : Str) (hInv : InvR r) :
    InvR (richStep r line) ∧ flattenR (richStep r line) = flattenR r ++ [line] ∧
    absR (richStep r line) = splitStep (absR r) line := by
  obtain ⟨h1, h2, h3, h4, h5, h6⟩ := hInv
  have habs_cur : (absR r).current = joinNl r.current := rfl
  have habs_fence : (absR r).inFence = r.inFence := rfl
  have habs_blank : (absR r).blankRun = !r.pending.isEmpty := rfl
  have habs_blocks : (absR r).blocks = r.groups.map (fun g => trimEndL (joinNl g.1)) := rfl
  set inF := (if isPrefixL (strL "```") line then !r.inFence else r.inFence) with hinF
  by_cases hsep : inF = false ∧ trimL line = []
  · -- separator line
    by_cases hcur : trimL (joinNl r.current) ≠ []
    · have hstep : richStep r line =
          { r with inFence := inF, pending := r.pending ++ [line] } := by
        rw [richStep]; rw [← hinF, if_pos hsep, if_pos hcur]
      have hstep' : splitStep (absR r) line =
          { absR r with inFence := inF, blankRun := true } := by
        rw [splitStep]
        rw [habs_cur, habs_fence, ← hinF, if_pos hsep, if_pos hcur]
        rfl
      refine ⟨?_, ?_, ?_⟩
      · refine ⟨?_, ?_, ?_, ?_, ?_, ?_⟩ <;> rw [hstep]
        · intro hc
          exact absurd (joinNl_eq_nil_of_nil _ hc) (fun he => hcur (by rw [he]; rfl))
        · exact fun _ => h2 (trim_ne_of_trim_join_ne _ hcur)
        · intro _; exact hsep.1
        · exact h4
        · intro l hl
          rcases List.mem_append.mp hl with hh | hh
          · exact h5 l hh
          · simp at hh; subst hh; exact hsep.2
        · exact h6
      · rw [hstep]
        simp [flattenR]
      · rw [hstep, hstep']
        simp [absR]
    · push_neg at hcur
      have hcur0 : r.current = [] := by
        by_contra hne
        exact absurd hcur (h2 hne)
      obtain ⟨hp0, hf0, hg0⟩ := h1 hcur0
      have hstep : richStep r line =
          { r with inFence := inF, leading := r.leading ++ [line] } := by
        rw [richStep]; rw [← hinF, if_pos hsep, if_neg (by simpa using hcur)]
      have hstep' : splitStep (absR r) line = { absR r with inFence := inF } := by
        rw [splitStep]
        rw [habs_cur, habs_fence, ← hinF, if_pos hsep,
            if_neg (by simpa using hcur)]
        rfl
      refine ⟨?_, ?_, ?_⟩
      · refine ⟨?_, ?_, ?_, ?_, ?_, ?_⟩ <;> rw [hstep]
        · intro _; exact ⟨hp0, hsep.1, hg0⟩
        · exact h2
        · intro hp; exact absurd hp0 hp
        · intro l hl
          rcases List.mem_append.mp hl with hh | hh
          · exact h4 l hh
          · simp at hh; subst hh; exact hsep.2
        · exact h5
        · exact h6
      · rw [hstep]
        simp [flattenR, hcur0, hp0, hg0]
      · rw [hstep, hstep']
        simp [absR]
  · -- non-separator line
    -- a blank line can only be a non-separator inside a fence
    have hblank_fence : trimL line = [] → r.inFence = false → False := by
      intro hb hf
      by_cases hpb : isPrefixL (strL "```") line
      · exact backtick_prefix_not_blank line hpb hb
      · exact hsep ⟨by rw [hinF, if_neg hpb, hf], hb⟩
    by_cases hpush : r.pending ≠ [] ∧ trimL (joinNl r.current) ≠ []
    · -- flush the current block
      have hnb : trimL line ≠ [] := fun hb => hblank_fence hb (h3 hpush.1)
      have hstep : richStep r line =
          { leading := r.leading, groups := r.groups ++ [(r.current, r.pending)],
            current := [line], pending := [], inFence := inF } := by
        rw [richStep]; rw [← hinF, if_neg hsep, if_pos hpush]
      have hyes : ((!r.pending.isEmpty) = true ∧ trimL (joinNl r.current) ≠ []) :=
        ⟨not_isEmpty_of_ne_nil hpush.1, hpush.2⟩
      have hstep' : splitStep (absR r) line =
          { blocks := (absR r).blocks ++ [trimEndL (absR r).current], current := line,
            inFence := inF, blankRun := false } := by
        rw [splitStep]
        rw [habs_cur, habs_fence, ← hinF, if_neg hsep, habs_blank, if_pos hyes]
      refine ⟨?_, ?_, ?_⟩
      · refine ⟨?_, ?_, ?_, ?_, ?_, ?_⟩ <;> rw [hstep]
        · intro hc; cases hc
        · intro _
          simpa [joinNl] using hnb
        · intro hp; exact absurd rfl hp
        · exact h4
        · intro l hl; cases hl
        · intro g hg
          rcases List.mem_append.mp hg with hh | hh
          · exact h6 g hh
          · simp at hh; subst hh
            exact ⟨trim_ne_of_trim_join_ne _ hpush.2, hpush.2, h5⟩
      · rw [hstep]
        simp [flattenR, List.flatMap_append]
      · rw [hstep, hstep']
        simp only [absR, habs_blocks, habs_cur]
        simp [joinNl, List.map_append]
    · -- append to the current block
      have hstep : richStep r line = { r with current := r.current ++ [line], inFence := inF } := by
        rw [richStep]; rw [← hinF, if_neg hsep, if_neg hpush]
      have hpend : r.pending = [] := by
        by_cases hcur0 : r.current = []
        · exact (h1 hcur0).1
        · by_contra hp
          exact hpush ⟨hp, h2 hcur0⟩
      have hno : ¬((!r.pending.isEmpty) = true ∧ trimL (joinNl r.current) ≠ []) := by
        rw [hpend]; simp
      have hstep' : splitStep (absR r) line =
          { absR r with
            current := if (absR r).current = [] then line
                       else (absR r).current ++ '\n' :: line,
            inFence := inF } := by
        rw [splitStep]
        rw [habs_fence, ← hinF, if_neg hsep, habs_blank, habs_cur, if_neg hno]
        rfl
      have hjoin : joinNl (r.current ++ [line])
          = if joinNl r.current = [] then line else joinNl r.current ++ '\n' :: line := by
        by_cases hcur0 : r.current = []
        · rw [hcur0]; simp [joinNl]
        · rw [joinNl_append_singleton _ _ hcur0, if_neg]
          intro he
          exact h2 hcur0 (by rw [he]; rfl)
      refine ⟨?_, ?_, ?_⟩
      · refine ⟨?_, ?_, ?_, ?_, ?_, ?_⟩ <;> rw [hstep]
        · intro hc; simp at hc
        · intro _
          by_cases hcur0 : r.current = []
          · have hnb : trimL line ≠ [] := fun hb => hblank_fence hb (h1 hcur0).2.1
            rw [hcur0]
            simpa [joinNl] using hnb
          · rw [joinNl_append_singleton _ _ hcur0]
            exact trimL_append_left_ne _ _ (h2 hcur0)
        · intro hp; rw [hpend] at hp; exact absurd rfl hp
        · exact h4
        · intro l hl; rw [hpend] at hl; cases hl
        · exact h6
      · rw [hstep]
        simp [flattenR, hpend, List.append_assoc]
      · rw [hstep, hstep']
        simp only [absR, habs_cur]
        simp [hjoin]
theorem richRun_spec (lines : List Str) :
    ∀ (r : RichSt), InvR r →
      InvR (lines.foldl richStep r) ∧
      flattenR (lines.foldl richStep r) = flattenR r ++ lines ∧
      lines.foldl splitStep (absR r) = absR (lines.foldl richStep r) := by
  induction lines with
  | nil => intro r h; exact ⟨h, by simp, rfl⟩
  | cons l ls ih =>
    intro r h
    obtain ⟨hI, hF, hA⟩ := richStep_spec r l h
    obtain ⟨i1, i2, i3⟩ := ih (richStep r l) hI
    refine ⟨by simpa using i1, ?_, ?_⟩
    · rw [List.foldl_cons, i2, hF]
      simp
    · rw [List.foldl_cons, List.foldl_cons, ← hA]
      exact i3

theorem splitIntoBlocks_decomp (md : Str) :
    ∃ (leading : List Str) (groups : List (List Str × List Str)),
      splitLinesNl (splitFrontmatter md).2
        = leading ++ (groups.flatMap fun g => g.1 ++ g.2) ∧
      (splitIntoBlocks md).2 = groups.map (fun g => trimEndL (joinNl g.1)) ∧
      (∀ l ∈ leading, trimL l = []) ∧
      (∀ g ∈ groups, g.1 ≠ [] ∧ trimL (joinNl g.1) ≠ [] ∧ ∀ l ∈ g.2, trimL l = []) := by
  have hInv0 : InvR ⟨[], [], [], [], false⟩ := by
    refine ⟨?_, ?_, ?_, ?_, ?_, ?_⟩ <;> simp
  obtain ⟨hI, hF, hA⟩ :=
    richRun_spec (splitLinesNl (splitFrontmatter md).2) ⟨[], [], [], [], false⟩ hInv0
  obtain ⟨k1, k2, k3, k4, k5, k6⟩ := hI
  have habs0 : absR ⟨[], [], [], [], false⟩ = ⟨[], [], false, false⟩ := rfl
  have hsplit2 : (splitIntoBlocks md).2 =
      (absR ((splitLinesNl (splitFrontmatter md).2).foldl richStep ⟨[], [], [], [], false⟩)).blocks
      ++ (if trimL (absR ((splitLinesNl (splitFrontmatter md).2).foldl richStep
            ⟨[], [], [], [], false⟩)).current ≠ []
          then [trimEndL (absR ((splitLinesNl (splitFrontmatter md).2).foldl richStep
            ⟨[], [], [], [], false⟩)).current]
          else []) := by
    rw [splitIntoBlocks]
    rw [← hA, habs0]
  set rf := (splitLinesNl (splitFrontmatter md).2).foldl richStep
    (⟨[], [], [], [], false⟩ : RichSt) with hrf
  simp only [flattenR] at hF
  simp only [List.nil_append, List.flatMap_nil, List.append_nil] at hF
  by_cases hc : rf.current = []
  · obtain ⟨hp0, _, _⟩ := k1 hc
    refine ⟨rf.leading, rf.groups, ?_, ?_, k4, k6⟩
    · rw [← hF, hc, hp0]
      simp
    · rw [hsplit2]
      have : (absR rf).current = joinNl rf.current := rfl
      rw [this, hc]
      simp [absR, joinNl, trimL, trimStartL, trimEndL]
  · have htr : trimL (joinNl rf.current) ≠ [] := k2 hc
    refine ⟨rf.leading, rf.groups ++ [(rf.current, rf.pending)], ?_, ?_, k4, ?_⟩
    · rw [← hF]
      simp [List.flatMap_append, List.append_assoc]
    · rw [hsplit2]
      have hcur : (absR rf).current = joinNl rf.current := rfl
      rw [hcur, if_pos htr]
      simp [absR, List.map_append]
    · intro g hg
      rcases List.mem_append.mp hg with hh | hh
      · exact k6 g hh
      · simp at hh; subst hh
        exact ⟨hc, htr, k5⟩

theorem splitFrontmatter_parts (md : Str) :
    (splitFrontmatter md).1 ++ (splitFrontmatter md).2 = md := by
  rw [splitFrontmatter]
  by_cases h : isPrefixL (strL "---\n") md
  · rw [if_pos h]
    cases hf : firstIdx (strL "\n---\n") (md.drop 4) with
    | none => simp
    | some i => simp [List.take_append_drop]
  · rw [if_neg h]
    simp

/-- C7: segmenting a document and rejoining the blocks with their
original separator lines reproduces the document body exactly up to the
per-block trailing-whitespace trimming: the body lines decompose into
leading blank lines and per-block line groups each followed by its
blank separator lines, and the produced blocks are exactly the
trailing-trimmed joins of those groups. -/
theorem C7_segmentation_roundtrip (md : Str) :
    ∃ (leading : List Str) (groups : List (List Str × List Str)),
      md = (splitIntoBlocks md).1
           ++ joinNl (leading ++ (groups.flatMap fun g => g.1 ++ g.2)) ∧
      (splitIntoBlocks md).2 = groups.map (fun g => trimEndL (joinNl g.1)) ∧
      (∀ l ∈ leading, trimL l = []) ∧
      (∀ g ∈ groups, g.1 ≠ [] ∧ (∀ l ∈ g.2, trimL l = [])) := by
  obtain ⟨leading, groups, hlines, hblocks, hlead, hgroups⟩ := splitIntoBlocks_decomp md
  refine ⟨leading, groups, ?_, hblocks, hlead,
    fun g hg => ⟨(hgroups g hg).1, (hgroups g hg).2.2⟩⟩
  rw [← hlines, joinNl_splitLinesNl]
  have : (splitIntoBlocks md).1 = (splitFrontmatter md).1 := rfl
  rw [this, splitFrontmatter_parts]

/-- C8: every emitted block is trailing-trimmed and not entirely
whitespace (whitespace-only blocks are dropped), and on the scenario
documents — a frontmatter header followed by two paragraphs separated
by one blank line — segmentation yields 2 blocks when the inner blank
line sits inside a fenced literal region and 3 blocks when the same
text is unfenced, because a blank line is a separator only outside a
fence. -/
theorem C8_split_blocks (md : Str) :
    (∀ b ∈ (splitIntoBlocks md).2, trimEndL b = b ∧ trimL b ≠ []) ∧
    (splitIntoBlocks
      (strL "---\ntitle: x\n---\n```\ncode\n\nmore\n```\n\npara two")).2.length = 2 ∧
    (splitIntoBlocks (strL "---\ntitle: x\n---\ncode\n\nmore\n\npara two")).2.length = 3 := by
  refine ⟨?_, by decide, by decide⟩
  intro b hb
  obtain ⟨leading, groups, _, hblocks, _, hgroups⟩ := splitIntoBlocks_decomp md
  rw [hblocks] at hb
  obtain ⟨g, hg, hgb⟩ := List.mem_map.mp hb
  subst hgb
  refine ⟨trimEndL_idem _, ?_⟩
  intro hcontra
  exact (hgroups g hg).2.1 ((trimL_trimEndL_eq_nil_iff _).mp hcontra)

/-- Closed instance of C8's universally quantified part at the block
`code` of the unfenced scenario document. -/
theorem C8_split_blocks_witness :
    trimEndL (strL "code") = strL "code" ∧ trimL (strL "code") ≠ [] :=
  (C8_split_blocks (strL "---\ntitle: x\n---\ncode\n\nmore\n\npara two")).1
    (strL "code") (by decide)

/-! ## The streaming parser agrees with `parseModelOutput` (claim C6) -/

theorem isPrefixL_singleton (a c : Char) (cs : Str) :
    isPrefixL [a] (c :: cs) = (a = c : Bool) := by
  simp [isPrefixL]

theorem firstIdx_singleton_none {a : Char} :
    ∀ {s : Str}, a ∉ s → firstIdx [a] s = none := by
  intro s
  induction s with
  | nil => intro _; rfl
  | cons c cs ih =>
    intro h
    rw [firstIdx, if_neg, ih (fun hm => h (List.mem_cons_of_mem c hm))]
    · rfl
    · simp [isPrefixL_singleton]
      intro he
      exact h (by rw [he]; exact List.mem_cons_self c cs)

theorem firstIdx_singleton_boundary {a : Char} :
    ∀ {u : Str} (v : Str), a ∉ u → firstIdx [a] (u ++ a :: v) = some u.length := by
  intro u
  induction u with
  | nil =>
    intro v _
    rw [List.nil_append, firstIdx,
        if_pos (show isPrefixL [a] (a :: v) = true by rw [isPrefixL_singleton]; simp)]
    rfl
  | cons c cs ih =>
    intro v h
    rw [List.cons_append, firstIdx, if_neg, ih v (fun hm => h (List.mem_cons_of_mem c hm))]
    · rfl
    · simp [isPrefixL_singleton]
      intro he
      exact h (by rw [he]; exact List.mem_cons_self c cs)

theorem drainLines_eq_charFold :
    ∀ (s buf : Str) (ps : PState) (fuel : Nat), '\n' ∉ buf →
      (buf ++ s).length ≤ fuel →
      drainLines fuel ps (buf ++ s) = List.foldl charStep (ps, buf) s := by
  intro s
  induction s with
  | nil =>
    intro buf ps fuel hnl _
    rw [List.append_nil, List.foldl_nil]
    cases fuel with
    | zero => rfl
    | succ f => rw [drainLines, firstIdx_singleton_none hnl]
  | cons c s' ih =>
    intro buf ps fuel hnl hlen
    by_cases hc : c = '\n'
    · subst hc
      cases fuel with
      | zero => simp at hlen
      | succ f =>
        rw [drainLines, firstIdx_singleton_boundary s' hnl]
        dsimp only
        have htake : (buf ++ '\n' :: s').take buf.length = buf := List.take_left buf _
        have hdrop : (buf ++ '\n' :: s').drop (buf.length + 1) = s' := by
          rw [show buf ++ '\n' :: s' = (buf ++ ['\n']) ++ s' by simp,
              show buf.length + 1 = (buf ++ ['\n']).length by simp]
          exact List.drop_left _ _
        rw [htake, hdrop]
        rw [List.foldl_cons, charStep, if_pos rfl]
        exact ih [] (streamLine ps buf) f (by simp) (by simp at hlen ⊢; omega)
    · rw [show buf ++ c :: s' = (buf ++ [c]) ++ s' by simp]
      rw [ih (buf ++ [c]) ps fuel
        (by simp; exact ⟨hnl, fun he => hc he.symm⟩) (by simpa using hlen)]
      rw [List.foldl_cons, charStep, if_neg hc]

theorem charFold_snd_no_nl :
    ∀ (s : Str) (ps : PState) (buf : Str), '\n' ∉ buf →
      '\n' ∉ (List.foldl charStep (ps, buf) s).2 := by
  intro s
  induction s with
  | nil => intro ps buf h; exact h
  | cons c s' ih =>
    intro ps buf h
    rw [List.foldl_cons, charStep]
    by_cases hc : c = '\n'
    · rw [if_pos hc]
      exact ih _ [] (by simp)
    · rw [if_neg hc]
      exact ih _ _ (by simp; exact ⟨h, fun he => hc he.symm⟩)

theorem streamFeed_eq (st : StreamSt) (frag : Str) (h : '\n' ∉ st.buf) :
    streamFeed st frag
      = ⟨(List.foldl charStep (st.ps, st.buf) frag).1,
         (List.foldl charStep (st.ps, st.buf) frag).2⟩ := by
  rw [streamFeed]
  rw [drainLines_eq_charFold frag st.buf st.ps (st.buf ++ frag).length h (le_refl _)]

theorem streamFold_eq :
    ∀ (frags : List Str) (ps : PState) (buf : Str), '\n' ∉ buf →
      frags.foldl streamFeed ⟨ps, buf⟩
        = ⟨(List.foldl charStep (ps, buf) frags.flatten).1,
           (List.foldl charStep (ps, buf) frags.flatten).2⟩ := by
  intro frags
  induction frags with
  | nil => intro ps buf _; rfl
  | cons f fs ih =>
    intro ps buf h
    rw [List.foldl_cons, streamFeed_eq ⟨ps, buf⟩ f h]
    rw [ih _ _ (charFold_snd_no_nl f ps buf h)]
    rw [List.flatten_cons, List.foldl_append]

theorem getLastD_irrel {α : Type} : ∀ (l : List α), l ≠ [] → ∀ (x y : α),
    l.getLastD x = l.getLastD y := by
  intro l
  cases l with
  | nil => intro h; exact absurd rfl h
  | cons a t =>
    intro _ x y
    rw [List.getLastD_cons, List.getLastD_cons]

theorem getLastD_cons_ne {α : Type} (a d : α) (l : List α) (h : l ≠ []) :
    (a :: l).getLastD d = l.getLastD d := by
  rw [List.getLastD_cons]
  exact getLastD_irrel l h a d

theorem dropLast_cons_ne {α : Type} (a : α) (l : List α) (h : l ≠ []) :
    (a :: l).dropLast = a :: l.dropLast := by
  cases l with
  | nil => exact absurd rfl h
  | cons b u => rfl

theorem consHead_nil_of_ne (ls : List Str) (h : ls ≠ []) : consHead [] ls = ls := by
  cases ls with
  | nil => exact absurd rfl h
  | cons l t => simp [consHead]

theorem charFold_lines :
    ∀ (s : Str) (ps : PState) (buf : Str),
      List.foldl charStep (ps, buf) s
        = (List.foldl streamLine ps (consHead buf (splitLinesNl s)).dropLast,
           (consHead buf (splitLinesNl s)).getLastD []) := by
  intro s
  induction s with
  | nil =>
    intro ps buf
    simp [splitLinesNl, consHead]
  | cons c s' ih =>
    intro ps buf
    by_cases hc : c = '\n'
    · subst hc
      rw [List.foldl_cons, charStep, if_pos rfl]
      rw [ih (streamLine ps buf) []]
      rw [consHead_nil_of_ne _ (splitLinesNl_ne_nil s')]
      rw [splitLinesNl]
      rw [if_pos rfl]
      rw [show consHead buf ([] :: splitLinesNl s') = buf :: splitLinesNl s' by
        simp [consHead]]
      rw [dropLast_cons_ne _ _ (splitLinesNl_ne_nil s'),
          getLastD_cons_ne _ _ _ (splitLinesNl_ne_nil s')]
      rw [List.foldl_cons]
    · rw [List.foldl_cons, charStep, if_neg hc]
      rw [ih ps (buf ++ [c])]
      rw [splitLinesNl, if_neg hc]
      cases hs : splitLinesNl s' with
      | nil => exact absurd hs (splitLinesNl_ne_nil s')
      | cons l ls =>
        rw [show consHead buf ((c :: l) :: ls) = consHead (buf ++ [c]) (l :: ls) by
          simp [consHead]]

theorem ws_not_digit (c : Char) (h : isWsC c = true) : c.isDigit = false := by
  rw [isWsC] at h
  simp only [Bool.or_eq_true, decide_eq_true_eq] at h
  rcases h with ((((h | h) | h) | h) | h) | h <;> subst h <;> decide

theorem parseNumbered_blank (line : Str) (hb : trimL line = []) :
    parseNumbered line = none := by
  cases line with
  | nil => rfl
  | cons c t =>
    rw [trimL_eq_nil_iff] at hb
    have hws := hb c (List.mem_cons_self c t)
    have htw : (c :: t).takeWhile Char.isDigit = [] := by
      rw [List.takeWhile_cons, ws_not_digit c hws]
      simp
    simp [parseNumbered, htw]

theorem streamLine_eq_pmoLine (st : PState) (line : Str) :
    streamLine st line = pmoLine st line := by
  by_cases hb : trimL line = []
  · rw [streamLine, if_pos hb, pmoLine, parseNumbered_blank line hb]
    cases st.currentNum with
    | none => rfl
    | some m => simp [hb]
  · rw [streamLine, if_neg hb, pmoLine]
    cases hn : parseNumbered line with
    | some nc => rfl
    | none =>
      cases st.currentNum with
      | none => rfl
      | some m => simp [hb]

theorem foldl_streamLine_eq_pmoLine :
    ∀ (ls : List Str) (ps : PState),
      List.foldl streamLine ps ls = List.foldl pmoLine ps ls := by
  intro ls
  induction ls with
  | nil => intro ps; rfl
  | cons l t ih =>
    intro ps
    rw [List.foldl_cons, List.foldl_cons, streamLine_eq_pmoLine, ih]

theorem takeWhile_ne_cr (rest : Str) (h : '\r' ∉ rest) :
    rest.takeWhile (fun c => c ≠ '\r') = rest := by
  simp
  intro x hx he
  exact h (he ▸ hx)

theorem munchWs1_mem (s r : Str) (h : munchWs1 s = some r) : ∀ a ∈ r, a ∈ s := by
  cases s with
  | nil => simp [munchWs1] at h
  | cons c t =>
    rw [munchWs1] at h
    by_cases hw : isWsC c
    · rw [if_pos hw] at h
      injection h with h
      subst h
      intro a ha
      exact List.mem_cons_of_mem c ((List.dropWhile_sublist _).subset ha)
    · rw [if_neg hw] at h
      cases h

/-- Without a carriage return in the line, the `s`-flagged and the
plain numbered-line matches agree; a `\r` in the capture region is
exactly where they differ. -/
theorem parseNumberedS_no_cr (line : Str) (h : '\r' ∉ line) :
    parseNumberedS line = parseNumbered line := by
  by_cases hds : line.takeWhile Char.isDigit = []
  · simp [parseNumberedS, parseNumbered, hds]
  · simp only [parseNumberedS, parseNumbered, hds, if_neg, ite_false]
    cases hm : munchWs1 (line.drop (line.takeWhile Char.isDigit).length) with
    | none => rfl
    | some rest =>
      have hr : '\r' ∉ rest := fun hx =>
        h (List.drop_subset _ _ (munchWs1_mem _ _ hm '\r' hx))
      dsimp only
      rw [takeWhile_ne_cr rest hr]

theorem streamFinish_eq (ps : PState) (buf : Str) (hcr : '\r' ∉ buf) :
    streamFinish ⟨ps, buf⟩ = finalSave (pmoLine ps buf) := by
  rw [streamFinish]
  by_cases hb : trimL buf = []
  · have hp : pmoLine ps buf = ps := by
      rw [pmoLine, parseNumbered_blank buf hb]
      cases ps.currentNum with
      | none => rfl
      | some m => simp [hb]
    rw [hp]
    simp [hb]
  · rw [show (if trimL (StreamSt.mk ps buf).buf = []
        then (StreamSt.mk ps buf).ps
        else streamFinal (StreamSt.mk ps buf).ps (StreamSt.mk ps buf).buf)
        = streamFinal ps buf by simp [hb]]
    rw [streamFinal, pmoLine, parseNumberedS_no_cr buf hcr]
    cases hn : parseNumbered buf with
    | some nc => rfl
    | none =>
      cases ps.currentNum with
      | none => rfl
      | some m => simp [hb]

theorem splitLinesNl_chars :
    ∀ (s l : Str), l ∈ splitLinesNl s → ∀ c ∈ l, c ∈ s := by
  intro s
  induction s with
  | nil =>
    intro l hl c hc
    simp [splitLinesNl] at hl
    subst hl
    simp at hc
  | cons a t ih =>
    intro l hl c hc
    rw [splitLinesNl] at hl
    by_cases ha : a = '\n'
    · rw [if_pos ha] at hl
      rcases List.mem_cons.mp hl with h1 | h1
      · subst h1; simp at hc
      · exact List.mem_cons_of_mem a (ih l h1 c hc)
    · rw [if_neg ha] at hl
      cases hs : splitLinesNl t with
      | nil => exact absurd hs (splitLinesNl_ne_nil t)
      | cons l0 ls0 =>
        rw [hs] at hl
        rcases List.mem_cons.mp hl with h1 | h1
        · subst h1
          rcases List.mem_cons.mp hc with h2 | h2
          · exact h2 ▸ List.mem_cons_self a t
          · exact List.mem_cons_of_mem a
              (ih l0 (by rw [hs]; exact List.mem_cons_self _ _) c h2)
        · exact List.mem_cons_of_mem a
            (ih l (by rw [hs]; exact List.mem_cons_of_mem _ h1) c hc)

theorem getLastD_mem {α : Type} :
    ∀ (l : List α), l ≠ [] → ∀ d : α, l.getLastD d ∈ l := by
  intro l
  induction l with
  | nil => intro h; exact absurd rfl h
  | cons a t ih =>
    intro _ d
    cases t with
    | nil => simp
    | cons b u =>
      rw [getLastD_cons_ne a d (b :: u) (by simp)]
      exact List.mem_cons_of_mem a (ih (by simp) d)

theorem dropLast_append_getLastD {α : Type} :
    ∀ (l : List α), l ≠ [] → ∀ (d : α), l.dropLast ++ [l.getLastD d] = l := by
  intro l
  induction l with
  | nil => intro h; exact absurd rfl h
  | cons a t ih =>
    intro _ d
    cases t with
    | nil => rfl
    | cons b u =>
      rw [dropLast_cons_ne _ _ (by simp), getLastD_cons_ne _ _ _ (by simp)]
      rw [List.cons_append, ih (by simp) d]

/-- On carriage-return-free input the streaming parser and
`parseModelOutput` agree: every divergence comes from the lone
`s`-flagged finalization regex. -/
theorem stream_matches_pmo_no_cr (frags : List Str)
    (hcr : '\r' ∉ frags.flatten) :
    streamRun frags = parseModelOutput frags.flatten := by
  have hlast : '\r' ∉ (splitLinesNl frags.flatten).getLastD [] := fun hx =>
    hcr (splitLinesNl_chars frags.flatten _
      (getLastD_mem _ (splitLinesNl_ne_nil _) []) '\r' hx)
  rw [streamRun, streamFold_eq frags ⟨fun _ => none, none, []⟩ [] (by simp)]
  rw [charFold_lines]
  rw [consHead_nil_of_ne _ (splitLinesNl_ne_nil _)]
  dsimp only
  rw [streamFinish_eq _ _ hlast]
  rw [foldl_streamLine_eq_pmoLine]
  rw [show pmoLine (List.foldl pmoLine ⟨fun _ => none, none, []⟩
        (splitLinesNl frags.flatten).dropLast) ((splitLinesNl frags.flatten).getLastD [])
      = List.foldl pmoLine ⟨fun _ => none, none, []⟩
        ((splitLinesNl frags.flatten).dropLast ++ [(splitLinesNl frags.flatten).getLastD []]) by
    rw [List.foldl_append, List.foldl_cons, List.foldl_nil]]
  rw [dropLast_append_getLastD _ (splitLinesNl_ne_nil _)]
  rfl

/-- C6: the incremental judgment map does NOT always equal
`parseModelOutput` of the concatenated fragments.  The per-line
dispatch and `parseModelOutput` share the plain `^(\d+)\s+(.*)` match,
whose `.` excludes `\r`, but the stream-end finalization alone uses the
`s`-flagged variant: a carriage return inside an unterminated final
line survives into the streamed judgment while `parseModelOutput`
truncates at it.  The same line, newline-terminated, agrees on both
sides, and the claim's scenario fragments (carriage-return-free) give
block 1 the no-change marker and block 2 exactly one change with
rationale `x` and inserted text `hi`. -/
theorem C6_streaming_cr_divergence :
    (streamRun [strL "1 a\rb"] 1 = some (strL "a\rb") ∧
      parseModelOutput (strL "1 a\rb") 1 = some (strL "a")) ∧
    (streamRun [strL "1 a\rb\n"] 1 = some (strL "a") ∧
      parseModelOutput (strL "1 a\rb\n") 1 = some (strL "a")) ∧
    streamRun [strL "1 lg", strL "tm\n2 ", strL "<ins comment=\"x\">hi</ins>\n"] 1
      = some (strL "lgtm") ∧
    (streamRun [strL "1 lg", strL "tm\n2 ", strL "<ins comment=\"x\">hi</ins>\n"] 2).map
        (fun s => (parseChanges s).map fun c => (c.comment, c.deleted, c.inserted))
      = some [(strL "x", none, some (strL "hi"))] := by
  decide

/-! ## Matching rendered tags (claims C1 and C2) -/

theorem isPrefixL_self_append : ∀ (p r : Str), isPrefixL p (p ++ r) = true := by
  intro p
  induction p with
  | nil => intro r; rfl
  | cons c t ih => intro r; simp [isPrefixL, ih]

theorem munchPrefix_self (p r : Str) : munchPrefix p (p ++ r) = some r := by
  rw [munchPrefix, if_pos (isPrefixL_self_append p r), List.drop_left]

theorem takeWhile_quote_append (v : Str) (hv : '"' ∉ v) (r : Str) :
    (v ++ '"' :: r).takeWhile (fun c => c != '"') = v := by
  induction v with
  | nil => simp [List.takeWhile_cons]
  | cons c t ih =>
    rw [List.cons_append, List.takeWhile_cons]
    have hc : (c != '"') = true := by
      simp only [bne_iff_ne, ne_eq]
      intro he
      exact hv (by rw [he]; exact List.mem_cons_self _ _)
    rw [hc]
    simp only [if_true]
    rw [ih (fun hm => hv (List.mem_cons_of_mem c hm))]

theorem takeQuoted_spec (v r : Str) (hv : '"' ∉ v) :
    takeQuoted (v ++ '"' :: r) = some (v, r) := by
  rw [takeQuoted]
  simp only [takeWhile_quote_append v hv r]
  rw [show (v ++ '"' :: r).drop v.length = '"' :: r from List.drop_left v _]
  rfl

theorem munchWs1_space (c : Char) (r : Str) (hc : isWsC c = false) :
    munchWs1 (' ' :: c :: r) = some (c :: r) := by
  rw [munchWs1, if_pos (by decide)]
  rw [List.dropWhile_cons, hc]
  simp

theorem munchWs1_nonws (c : Char) (r : Str) (hc : isWsC c = false) :
    munchWs1 (c :: r) = none := by
  rw [munchWs1, if_neg (by simp [hc])]

theorem isPrefixL_lt_head {p' : Str} {c : Char} {cs : Str} (hc : c ≠ '<') :
    isPrefixL ('<' :: p') (c :: cs) = false := by
  simp [isPrefixL]
  intro he
  exact absurd he.symm hc

theorem firstIdx_lt_pat {p' : Str} :
    ∀ {u : Str} (X : Str), '<' ∉ u →
      firstIdx ('<' :: p') (u ++ ('<' :: p') ++ X) = some u.length := by
  intro u
  induction u with
  | nil =>
    intro X _
    rw [List.nil_append, List.cons_append '<' p' X, firstIdx]
    rw [if_pos (by
      have h := isPrefixL_self_append ('<' :: p') X
      rwa [List.cons_append] at h)]
    rfl
  | cons c cs ih =>
    intro X h
    have hc : c ≠ '<' := fun he => h (by rw [he]; exact List.mem_cons_self _ _)
    rw [show (c :: cs) ++ ('<' :: p') ++ X = c :: (cs ++ ('<' :: p') ++ X) by simp]
    rw [firstIdx, if_neg (by rw [isPrefixL_lt_head hc]; simp)]
    rw [ih X (fun hm => h (List.mem_cons_of_mem c hm))]
    rfl

theorem lazyUntil_spec {p' : Str} (u X : Str) (hu : '<' ∉ u) :
    lazyUntil ('<' :: p') (u ++ ('<' :: p') ++ X) = some (u, X) := by
  rw [lazyUntil, firstIdx_lt_pat X hu]
  have h1 : (u ++ (('<' :: p') ++ X)).take u.length = u := List.take_left u _
  have h2 : ((u ++ ('<' :: p')) ++ X).drop ((u ++ ('<' :: p')).length) = X :=
    List.drop_left _ _
  simp only [List.length_append] at h2
  simp [h1, h2]

theorem tryTag_fail_head (tag : Str) (ar : Bool) (c : Char) (s : Str) (hc : c ≠ '<') :
    tryTag tag ar (c :: s) = none := by
  rw [tryTag]
  rw [show munchPrefix ('<' :: tag) (c :: s) = none by
    rw [munchPrefix, if_neg (by rw [isPrefixL_lt_head hc]; simp)]]
  rfl

theorem tryTag_fail_second (t2 : Char) (tag' : Str) (ar : Bool) (c : Char) (s : Str)
    (hc : c ≠ t2) : tryTag (t2 :: tag') ar ('<' :: c :: s) = none := by
  rw [tryTag]
  rw [show munchPrefix ('<' :: t2 :: tag') ('<' :: c :: s) = none by
    rw [munchPrefix, if_neg]
    simp [isPrefixL]
    intro he
    exact absurd he.symm hc]
  rfl

theorem munchWs1_comment (tail : Str) :
    munchWs1 (strL " comment=\"" ++ tail) = some (strL "comment=\"" ++ tail) := by
  rw [show strL " comment=\"" ++ tail = ' ' :: 'c' :: (strL "omment=\"" ++ tail) from rfl]
  rw [munchWs1_space 'c' _ (by decide)]
  rfl

theorem munchWs1_replaceW (tail : Str) :
    munchWs1 (strL " replaceWith=\"" ++ tail) = some (strL "replaceWith=\"" ++ tail) := by
  rw [show strL " replaceWith=\"" ++ tail = ' ' :: 'r' :: (strL "eplaceWith=\"" ++ tail) from rfl]
  rw [munchWs1_space 'r' _ (by decide)]
  rfl

theorem tryTag_del_rw (com v body X : Str)
    (hcom : '"' ∉ com) (hv : '"' ∉ v) (hbody : '<' ∉ body) :
    tryTag (strL "del") true (renderSpan (.del com (some v) body) ++ X)
      = some ⟨com, some v, body, X⟩ := by
  have h1 : renderSpan (.del com (some v) body) ++ X
      = ('<' :: strL "del")
        ++ (strL " comment=\""
          ++ (com ++ '"' :: (strL " replaceWith=\""
            ++ (v ++ '"' :: ('>' :: (body ++ ('<' :: ('/' :: (strL "del" ++ ['>']))) ++ X)))))) := by
    simp only [renderSpan]
    rw [show strL "<del comment=\"" = ('<' :: strL "del") ++ strL " comment=\"" from rfl,
        show strL "\" replaceWith=\"" = '"' :: strL " replaceWith=\"" from rfl,
        show strL "\">" = ('"' : Char) :: '>' :: ([] : Str) from rfl,
        show strL "</del>" = '<' :: ('/' :: (strL "del" ++ ['>'])) from rfl]
    simp
  have hgt : munchPrefix ['>'] ('>' :: ((body ++ ('<' :: ('/' :: (strL "del" ++ ['>'])))) ++ X))
      = some ((body ++ ('<' :: ('/' :: (strL "del" ++ ['>'])))) ++ X) :=
    munchPrefix_self ['>'] _
  rw [tryTag, h1]
  simp only [munchPrefix_self, Option.bind_eq_bind, Option.some_bind, munchWs1_comment,
    takeQuoted_spec _ _ hcom, eq_self_iff_true, if_true, munchWs1_replaceW,
    takeQuoted_spec _ _ hv, hgt, lazyUntil_spec body X hbody, Option.pure_def]

theorem tryTag_del_norw (com body X : Str)
    (hcom : '"' ∉ com) (hbody : '<' ∉ body) :
    tryTag (strL "del") true (renderSpan (.del com none body) ++ X)
      = some ⟨com, none, body, X⟩ := by
  have h1 : renderSpan (.del com none body) ++ X
      = ('<' :: strL "del")
        ++ (strL " comment=\""
          ++ (com ++ '"' :: ('>' :: (body ++ ('<' :: ('/' :: (strL "del" ++ ['>']))) ++ X)))) := by
    simp only [renderSpan]
    rw [show strL "<del comment=\"" = ('<' :: strL "del") ++ strL " comment=\"" from rfl,
        show strL "\">" = ('"' : Char) :: '>' :: ([] : Str) from rfl,
        show strL "</del>" = '<' :: ('/' :: (strL "del" ++ ['>'])) from rfl]
    simp
  have hws : munchWs1 ('>' :: ((body ++ ('<' :: ('/' :: (strL "del" ++ ['>'])))) ++ X)) = none :=
    munchWs1_nonws _ _ (by decide)
  have hgt : munchPrefix ['>'] ('>' :: ((body ++ ('<' :: ('/' :: (strL "del" ++ ['>'])))) ++ X))
      = some ((body ++ ('<' :: ('/' :: (strL "del" ++ ['>'])))) ++ X) :=
    munchPrefix_self ['>'] _
  rw [tryTag, h1]
  simp only [munchPrefix_self, Option.bind_eq_bind, Option.some_bind, munchWs1_comment,
    takeQuoted_spec _ _ hcom, eq_self_iff_true, if_true, hws, hgt,
    lazyUntil_spec body X hbody, Option.pure_def]

theorem tryTag_ins_some (ar : Bool) (com body X : Str)
    (hcom : '"' ∉ com) (hbody : '<' ∉ body) :
    tryTag (strL "ins") ar (renderSpan (.ins com body) ++ X)
      = some ⟨com, none, body, X⟩ := by
  have h1 : renderSpan (.ins com body) ++ X
      = ('<' :: strL "ins")
        ++ (strL " comment=\""
          ++ (com ++ '"' :: ('>' :: (body ++ ('<' :: ('/' :: (strL "ins" ++ ['>']))) ++ X)))) := by
    simp only [renderSpan]
    rw [show strL "<ins comment=\"" = ('<' :: strL "ins") ++ strL " comment=\"" from rfl,
        show strL "\">" = ('"' : Char) :: '>' :: ([] : Str) from rfl,
        show strL "</ins>" = '<' :: ('/' :: (strL "ins" ++ ['>'])) from rfl]
    simp
  have hws : munchWs1 ('>' :: ((body ++ ('<' :: ('/' :: (strL "ins" ++ ['>'])))) ++ X)) = none :=
    munchWs1_nonws _ _ (by decide)
  have hgt : munchPrefix ['>'] ('>' :: ((body ++ ('<' :: ('/' :: (strL "ins" ++ ['>'])))) ++ X))
      = some ((body ++ ('<' :: ('/' :: (strL "ins" ++ ['>'])))) ++ X) :=
    munchPrefix_self ['>'] _
  rw [tryTag, h1]
  cases ar with
  | true =>
    simp only [munchPrefix_self, Option.bind_eq_bind, Option.some_bind, munchWs1_comment,
      takeQuoted_spec _ _ hcom, eq_self_iff_true, if_true, hws, hgt,
      lazyUntil_spec body X hbody, Option.pure_def]
  | false =>
    simp only [munchPrefix_self, Option.bind_eq_bind, Option.some_bind, munchWs1_comment,
      takeQuoted_spec _ _ hcom, Bool.false_eq_true, if_false, hws, hgt,
      lazyUntil_spec body X hbody, Option.pure_def]

theorem delToBody_fail_head (c : Char) (s : Str) (hc : c ≠ '<') :
    delToBody (c :: s) = none := by
  rw [delToBody, tryTag_fail_head _ _ _ _ hc]
  rfl

theorem insToEmpty_fail_head (c : Char) (s : Str) (hc : c ≠ '<') :
    insToEmpty (c :: s) = none := by
  rw [insToEmpty, tryTag_fail_head _ _ _ _ hc]
  rfl

theorem tryChange_fail_head (c : Char) (s : Str) (hc : c ≠ '<') :
    tryChange (c :: s) = none := by
  rw [tryChange, tryTag_fail_head _ _ _ _ hc, tryTag_fail_head _ _ _ _ hc]

theorem rscanF_skip_clean (tm : Str → Option (Str × Str))
    (H1 : ∀ (c : Char) (s : Str), c ≠ '<' → tm (c :: s) = none) :
    ∀ (seg X : Str) (fuel : Nat), '<' ∉ seg → seg.length ≤ fuel →
      rscanF tm fuel (seg ++ X) = seg ++ rscanF tm (fuel - seg.length) X := by
  intro seg
  induction seg with
  | nil => intro X fuel _ _; simp
  | cons c t ih =>
    intro X fuel h hf
    cases fuel with
    | zero => simp at hf
    | succ f =>
      rw [List.cons_append, rscanF,
          H1 c (t ++ X) (fun he => h (by rw [he]; exact List.mem_cons_self _ _))]
      rw [ih X f (fun hm => h (List.mem_cons_of_mem c hm))
        (by simp only [List.length_cons] at hf; omega)]
      simp only [List.length_cons, List.cons_append, Nat.add_sub_add_right]

theorem rscanF_emit (tm : Str → Option (Str × Str)) (fuel : Nat) (c : Char) (cs : Str)
    (rep rest : Str) (h : tm (c :: cs) = some (rep, rest)) :
    rscanF tm (fuel + 1) (c :: cs) = rep ++ rscanF tm fuel rest := by
  rw [rscanF, h]

/-- The rendered insertion span decomposed for scanning. -/
theorem renderIns_decomp (com body X : Str) :
    renderSpan (.ins com body) ++ X
      = '<' :: ((strL "ins comment=\"" ++ com ++ strL "\">" ++ body)
          ++ '<' :: (strL "/ins>" ++ X)) := by
  simp only [renderSpan]
  rw [show strL "<ins comment=\"" = '<' :: strL "ins comment=\"" from rfl,
      show strL "</ins>" = '<' :: strL "/ins>" from rfl]
  simp

theorem clean_insMid (com body : Str) (hcom : '<' ∉ com) (hbody : '<' ∉ body) :
    '<' ∉ strL "ins comment=\"" ++ com ++ strL "\">" ++ body := by
  simp only [List.mem_append]
  rintro (((h | h) | h) | h)
  · revert h; decide
  · exact hcom h
  · revert h; decide
  · exact hbody h

theorem rscanF_del_skip_ins (com body X : Str) (fuel : Nat)
    (hcom : '<' ∉ com) (hbody : '<' ∉ body)
    (hf : (renderSpan (.ins com body)).length ≤ fuel) :
    rscanF delToBody fuel (renderSpan (.ins com body) ++ X)
      = renderSpan (.ins com body)
        ++ rscanF delToBody (fuel - (renderSpan (.ins com body)).length) X := by
  have hA : '<' ∉ strL "ins comment=\"" ++ com ++ strL "\">" ++ body :=
    clean_insMid com body hcom hbody
  have hd : (renderSpan (.ins com body)).length
      = (strL "ins comment=\"" ++ com ++ strL "\">" ++ body).length + (strL "/ins>").length + 2 := by
    have := congrArg List.length (renderIns_decomp com body [])
    simp at this
    simp [this]
    omega
  cases fuel with
  | zero =>
    have := hd
    omega
  | succ f =>
    rw [renderIns_decomp]
    rw [show rscanF delToBody (f + 1)
          ('<' :: ((strL "ins comment=\"" ++ com ++ strL "\">" ++ body)
            ++ '<' :: (strL "/ins>" ++ X)))
        = '<' :: rscanF delToBody f
            ((strL "ins comment=\"" ++ com ++ strL "\">" ++ body) ++ '<' :: (strL "/ins>" ++ X)) by
      rw [rscanF]
      rw [show delToBody ('<' :: ((strL "ins comment=\"" ++ com ++ strL "\">" ++ body)
            ++ '<' :: (strL "/ins>" ++ X))) = none by
        rw [show ('<' :: ((strL "ins comment=\"" ++ com ++ strL "\">" ++ body)
              ++ '<' :: (strL "/ins>" ++ X)))
            = '<' :: 'i' :: ((strL "ns comment=\"" ++ com ++ strL "\">" ++ body)
              ++ '<' :: (strL "/ins>" ++ X)) by
          rw [show strL "ins comment=\"" = 'i' :: strL "ns comment=\"" from rfl]
          rfl]
        rw [delToBody, show strL "del" = 'd' :: strL "el" from rfl,
            tryTag_fail_second 'd' _ _ 'i' _ (by decide)]
        rfl]]
    have hflen : (strL "ins comment=\"" ++ com ++ strL "\">" ++ body).length ≤ f := by
      have h2 := hf
      rw [hd] at h2
      omega
    rw [rscanF_skip_clean delToBody delToBody_fail_head _ _ f hA hflen]
    set A := strL "ins comment=\"" ++ com ++ strL "\">" ++ body with hAdef
    set g := f - A.length with hg
    cases hgc : g with
    | zero =>
      exfalso
      rw [hd] at hf
      omega
    | succ g' =>
      rw [show rscanF delToBody (g' + 1) ('<' :: (strL "/ins>" ++ X))
          = '<' :: rscanF delToBody g' (strL "/ins>" ++ X) by
        rw [rscanF]
        rw [show ('<' : Char) :: (strL "/ins>" ++ X)
            = '<' :: '/' :: (strL "ins>" ++ X) from rfl]
        rw [delToBody, show strL "del" = 'd' :: strL "el" from rfl,
            tryTag_fail_second 'd' _ _ '/' _ (by decide)]
        rfl]
      rw [rscanF_skip_clean delToBody delToBody_fail_head _ _ g' (by decide)
        (by rw [hd] at hf; rw [hg] at hgc; omega)]
      rw [hd, renderIns_decomp com body]
      have hfe : g' - (strL "/ins>").length
          = f + 1 - (A.length + (strL "/ins>").length + 2) := by
        rw [hd] at hf
        rw [hg] at hgc
        omega
      rw [hfe, hAdef]

theorem rscanF_nil (tm : Str → Option (Str × Str)) (k : Nat) : rscanF tm k [] = [] := by
  cases k <;> rfl

theorem rscanF_head_emit (tm : Str → Option (Str × Str)) (fuel : Nat) (s rep rest : Str)
    (h : tm s = some (rep, rest)) (hs : s ≠ []) :
    rscanF tm (fuel + 1) s = rep ++ rscanF tm fuel rest := by
  cases s with
  | nil => exact absurd rfl hs
  | cons c cs => rw [rscanF, h]

theorem renderSpan_cons (sp : SpanSpec) (X : Str) :
    ∃ t, renderSpan sp ++ X = '<' :: t := by
  cases sp with
  | del com rw body => cases rw <;> exact ⟨_, rfl⟩
  | ins com body => exact ⟨_, rfl⟩

theorem renderSpan_len_pos (sp : SpanSpec) : 0 < (renderSpan sp).length := by
  obtain ⟨t, ht⟩ := renderSpan_cons sp []
  rw [List.append_nil] at ht
  rw [ht]
  simp

theorem rscanF_del_emit (com : Str) (rw : Option Str) (body X : Str) (fuel : Nat)
    (hcom : '"' ∉ com) (hrw : ∀ v, rw = some v → '"' ∉ v) (hbody : '<' ∉ body) :
    rscanF delToBody (fuel + 1) (renderSpan (.del com rw body) ++ X)
      = body ++ rscanF delToBody fuel X := by
  apply rscanF_head_emit
  · cases rw with
    | none => rw [delToBody, tryTag_del_norw com body X hcom hbody]; rfl
    | some v => rw [delToBody, tryTag_del_rw com v body X hcom (hrw v rfl) hbody]; rfl
  · obtain ⟨t, ht⟩ := renderSpan_cons (.del com rw body) X
    rw [ht]
    simp

theorem rscanF_ins_emit (com body X : Str) (fuel : Nat)
    (hcom : '"' ∉ com) (hbody : '<' ∉ body) :
    rscanF insToEmpty (fuel + 1) (renderSpan (.ins com body) ++ X)
      = rscanF insToEmpty fuel X := by
  have h := rscanF_head_emit insToEmpty fuel (renderSpan (.ins com body) ++ X) [] X
    (by rw [insToEmpty, tryTag_ins_some false com body X hcom hbody]; rfl)
    (by obtain ⟨t, ht⟩ := renderSpan_cons (.ins com body) X; rw [ht]; simp)
  simpa using h

theorem interleave_append (u t0 : Str) (chs : List (SpanSpec × Str)) :
    interleaveSpans (u ++ t0) chs = u ++ interleaveSpans t0 chs := by
  cases chs with
  | nil => rfl
  | cons p rest =>
    obtain ⟨sp, s⟩ := p
    simp [interleaveSpans]

theorem recoverSpec_append (u t0 : Str) (chs : List (SpanSpec × Str)) :
    recoverSpec (u ++ t0) chs = u ++ recoverSpec t0 chs := by
  cases chs with
  | nil => rfl
  | cons p rest =>
    obtain ⟨sp, s⟩ := p
    simp [recoverSpec]

theorem toInsOnly_append (u : Str) :
    ∀ (chs : List (SpanSpec × Str)) (s : Str),
      toInsOnly (u ++ s) chs = (u ++ (toInsOnly s chs).1, (toInsOnly s chs).2) := by
  intro chs
  induction chs with
  | nil => intro s; rfl
  | cons p rest ih =>
    intro s
    obtain ⟨sp, s2⟩ := p
    cases sp with
    | del c r b =>
      simp only [toInsOnly]
      rw [show u ++ s ++ b ++ s2 = u ++ (s ++ b ++ s2) by simp]
      exact ih (s ++ b ++ s2)
    | ins c b =>
      simp [toInsOnly]

theorem segConcat_toInsOnly :
    ∀ (chs : List (SpanSpec × Str)) (s0 : Str),
      segConcat (toInsOnly s0 chs).1 (toInsOnly s0 chs).2 = recoverSpec s0 chs := by
  intro chs
  induction chs with
  | nil => intro s0; rfl
  | cons p rest ih =>
    intro s0
    obtain ⟨sp, s⟩ := p
    cases sp with
    | del c r b =>
      simp only [toInsOnly, recoverSpec, delContentOf]
      rw [ih (s0 ++ b ++ s), recoverSpec_append (s0 ++ b) s rest]
    | ins c b =>
      simp only [toInsOnly, segConcat, recoverSpec, delContentOf]
      rw [ih s]
      simp

theorem toInsOnly_wf :
    ∀ (chs : List (SpanSpec × Str)) (s0 : Str), wfDerived s0 chs →
      wfDerived (toInsOnly s0 chs).1 (toInsOnly s0 chs).2
        ∧ ∀ p ∈ (toInsOnly s0 chs).2, ∃ c b, p.1 = SpanSpec.ins c b := by
  intro chs
  induction chs with
  | nil =>
    intro s0 hwf
    exact ⟨⟨hwf.1, by simp [toInsOnly]⟩, by simp [toInsOnly]⟩
  | cons p rest ih =>
    intro s0 hwf
    obtain ⟨sp, s⟩ := p
    have hhead := hwf.2 (sp, s) (List.mem_cons_self _ _)
    have hrest : wfDerived s rest :=
      ⟨hhead.2, fun q hq => hwf.2 q (List.mem_cons_of_mem _ hq)⟩
    cases sp with
    | del c r b =>
      have hwf2 : wfDerived (s0 ++ b ++ s) rest := by
        refine ⟨?_, hrest.2⟩
        intro hm
        simp only [List.mem_append] at hm
        rcases hm with (hm | hm) | hm
        · exact hwf.1 hm
        · exact hhead.1.2.2 hm
        · exact hhead.2 hm
      simpa only [toInsOnly] using ih (s0 ++ b ++ s) hwf2
    | ins c b =>
      have hih := ih s hrest
      refine ⟨⟨hwf.1, ?_⟩, ?_⟩
      · intro q hq
        simp only [toInsOnly, List.mem_cons] at hq
        rcases hq with hq | hq
        · rw [hq]
          exact ⟨hhead.1, hih.1.1⟩
        · exact hih.1.2 q hq
      · intro q hq
        simp only [toInsOnly, List.mem_cons] at hq
        rcases hq with hq | hq
        · rw [hq]
          exact ⟨c, b, rfl⟩
        · exact hih.2 q hq

theorem delPass :
    ∀ (chs : List (SpanSpec × Str)) (s0 : Str) (fuel : Nat), wfDerived s0 chs →
      (interleaveSpans s0 chs).length ≤ fuel →
      rscanF delToBody fuel (interleaveSpans s0 chs)
        = interleaveSpans (toInsOnly s0 chs).1 (toInsOnly s0 chs).2 := by
  intro chs
  induction chs with
  | nil =>
    intro s0 fuel hwf hf
    have h := rscanF_skip_clean delToBody delToBody_fail_head s0 [] fuel hwf.1 hf
    simpa [rscanF_nil, interleaveSpans, toInsOnly] using h
  | cons p rest ih =>
    intro s0 fuel hwf hf
    obtain ⟨sp, s⟩ := p
    have h0 : cleanStr s0 := hwf.1
    have hhead := hwf.2 (sp, s) (List.mem_cons_self _ _)
    have hrest : wfDerived s rest :=
      ⟨hhead.2, fun q hq => hwf.2 q (List.mem_cons_of_mem _ hq)⟩
    have hstep : interleaveSpans s0 ((sp, s) :: rest)
        = s0 ++ (renderSpan sp ++ interleaveSpans s rest) := by
      simp [interleaveSpans]
    have hf2 : s0.length + ((renderSpan sp).length + (interleaveSpans s rest).length)
        ≤ fuel := by
      rw [hstep] at hf
      simpa using hf
    have hpos := renderSpan_len_pos sp
    rw [hstep,
        rscanF_skip_clean delToBody delToBody_fail_head s0 _ fuel h0 (by omega)]
    cases sp with
    | del c r b =>
      cases hk : fuel - s0.length with
      | zero => omega
      | succ k =>
        rw [rscanF_del_emit c r b _ k hhead.1.1.2
          (fun v hv => (hhead.1.2.1 v hv).2) hhead.1.2.2]
        rw [ih s k hrest (by omega)]
        simp only [toInsOnly]
        rw [show toInsOnly (s0 ++ b ++ s) rest
            = (s0 ++ b ++ (toInsOnly s rest).1, (toInsOnly s rest).2)
          from toInsOnly_append (s0 ++ b) rest s]
        rw [interleave_append]
        simp
    | ins c b =>
      rw [rscanF_del_skip_ins c b (interleaveSpans s rest) (fuel - s0.length)
        hhead.1.1.1 hhead.1.2 (by omega)]
      rw [ih s _ hrest (by omega)]
      simp [toInsOnly, interleaveSpans]

theorem insPass :
    ∀ (chs : List (SpanSpec × Str)) (s0 : Str) (fuel : Nat),
      wfDerived s0 chs → (∀ p ∈ chs, ∃ c b, p.1 = SpanSpec.ins c b) →
      (interleaveSpans s0 chs).length ≤ fuel →
      rscanF insToEmpty fuel (interleaveSpans s0 chs) = segConcat s0 chs := by
  intro chs
  induction chs with
  | nil =>
    intro s0 fuel hwf _ hf
    have h := rscanF_skip_clean insToEmpty insToEmpty_fail_head s0 [] fuel hwf.1 hf
    simpa [rscanF_nil, interleaveSpans, segConcat] using h
  | cons p rest ih =>
    intro s0 fuel hwf hins hf
    obtain ⟨sp, s⟩ := p
    obtain ⟨c, b, hcb⟩ := hins (sp, s) (List.mem_cons_self _ _)
    simp only at hcb
    subst hcb
    have h0 : cleanStr s0 := hwf.1
    have hhead := hwf.2 (SpanSpec.ins c b, s) (List.mem_cons_self _ _)
    have hrest : wfDerived s rest :=
      ⟨hhead.2, fun q hq => hwf.2 q (List.mem_cons_of_mem _ hq)⟩
    have hstep : interleaveSpans s0 ((SpanSpec.ins c b, s) :: rest)
        = s0 ++ (renderSpan (.ins c b) ++ interleaveSpans s rest) := by
      simp [interleaveSpans]
    have hf2 : s0.length + ((renderSpan (SpanSpec.ins c b)).length
        + (interleaveSpans s rest).length) ≤ fuel := by
      rw [hstep] at hf
      simpa using hf
    have hpos := renderSpan_len_pos (SpanSpec.ins c b)
    rw [hstep,
        rscanF_skip_clean insToEmpty insToEmpty_fail_head s0 _ fuel h0 (by omega)]
    cases hk : fuel - s0.length with
    | zero => omega
    | succ k =>
      rw [rscanF_ins_emit c b _ k hhead.1.1.2 hhead.1.2]
      rw [ih s k hrest (fun q hq => hins q (List.mem_cons_of_mem _ hq)) (by omega)]
      simp [segConcat]

/-- `recoverOriginal` on any derived annotated text restores the
pre-annotation text (each span replaced by its deletion content). -/
theorem recoverOriginal_derived (s0 : Str) (chs : List (SpanSpec × Str))
    (hwf : wfDerived s0 chs) :
    recoverOriginal (interleaveSpans s0 chs) = recoverSpec s0 chs := by
  obtain ⟨hwf2, hins2⟩ := toInsOnly_wf chs s0 hwf
  simp only [recoverOriginal]
  rw [delPass chs s0 (interleaveSpans s0 chs).length hwf (le_refl _)]
  rw [insPass (toInsOnly s0 chs).2 (toInsOnly s0 chs).1 _ hwf2 hins2 (le_refl _)]
  exact segConcat_toInsOnly chs s0

/-- C1: for every annotated text derived from an (original, changes)
pair — tag-free segments interleaved with well-formed rendered
`<del>`/`<ins>` change spans — `recoverOriginal` replaces every change
span with its deletion content (empty if none) and returns exactly the
pre-annotation original text. -/
theorem C1_recover_is_original (s0 : Str) (chs : List (SpanSpec × Str))
    (hwf : wfDerived s0 chs) :
    recoverOriginal (interleaveSpans s0 chs) = recoverSpec s0 chs :=
  recoverOriginal_derived s0 chs hwf

theorem C1_recover_is_original_witness :
    recoverOriginal (interleaveSpans (strL "a ")
        [(SpanSpec.del (strL "c") (some (strL "z")) (strL "x"), strL " m"),
         (SpanSpec.ins (strL "d") (strL "y"), strL " t"),
         (SpanSpec.del (strL "e") none (strL "w"), strL "!")])
      = recoverSpec (strL "a ")
        [(SpanSpec.del (strL "c") (some (strL "z")) (strL "x"), strL " m"),
         (SpanSpec.ins (strL "d") (strL "y"), strL " t"),
         (SpanSpec.del (strL "e") none (strL "w"), strL "!")] := by
  apply C1_recover_is_original
  constructor
  · show ('<' : Char) ∉ strL "a "
    decide
  · intro p hp
    simp only [List.mem_cons, List.not_mem_nil, or_false] at hp
    rcases hp with hp | hp | hp <;> subst hp
    · exact ⟨⟨⟨by decide, by decide⟩,
        fun v hv => by injection hv with h; exact h ▸ ⟨by decide, by decide⟩,
        show ('<' : Char) ∉ strL "x" by decide⟩,
        show ('<' : Char) ∉ strL " m" by decide⟩
    · exact ⟨⟨⟨by decide, by decide⟩,
        show ('<' : Char) ∉ strL "y" by decide⟩,
        show ('<' : Char) ∉ strL " t" by decide⟩
    · exact ⟨⟨⟨by decide, by decide⟩,
        fun v hv => Option.noConfusion hv,
        show ('<' : Char) ∉ strL "w" by decide⟩,
        show ('<' : Char) ∉ strL "!" by decide⟩

theorem tryTag_del_fail_ins (ar : Bool) (c b X : Str) :
    tryTag (strL "del") ar (renderSpan (.ins c b) ++ X) = none := by
  rw [show renderSpan (.ins c b) ++ X
      = '<' :: 'i' :: (strL "ns comment=\"" ++ c ++ strL "\">" ++ b ++ strL "</ins>" ++ X)
    from rfl]
  rw [show strL "del" = 'd' :: strL "el" from rfl]
  exact tryTag_fail_second 'd' (strL "el") ar 'i' _ (by decide)

theorem tryChange_del (c : Str) (r : Option Str) (b X : Str)
    (hc : '"' ∉ c) (hr : ∀ v, r = some v → '"' ∉ v) (hb : '<' ∉ b) :
    tryChange (renderSpan (.del c r b) ++ X) = some (chgOf (.del c r b) 0, X) := by
  have hlen : (renderSpan (SpanSpec.del c r b) ++ X).length - X.length
      = (renderSpan (SpanSpec.del c r b)).length := by simp
  have htake := List.take_left (renderSpan (SpanSpec.del c r b)) X
  cases r with
  | none =>
    rw [tryChange, tryTag_del_norw c b X hc hb]
    simp [chgOf, hlen, htake]
  | some v =>
    rw [tryChange, tryTag_del_rw c v b X hc (hr v rfl) hb]
    simp [chgOf, hlen, htake]

theorem tryChange_ins (c b X : Str) (hc : '"' ∉ c) (hb : '<' ∉ b) :
    tryChange (renderSpan (.ins c b) ++ X) = some (chgOf (.ins c b) 0, X) := by
  have hlen : (renderSpan (SpanSpec.ins c b) ++ X).length - X.length
      = (renderSpan (SpanSpec.ins c b)).length := by simp
  have htake := List.take_left (renderSpan (SpanSpec.ins c b)) X
  rw [tryChange, tryTag_del_fail_ins true c b X, tryTag_ins_some true c b X hc hb]
  simp [chgOf, hlen, htake]

theorem chgOf_start (sp : SpanSpec) (p : Nat) : (chgOf sp p).startOffset = p := by
  cases sp <;> rfl

theorem chgOf_end (sp : SpanSpec) (p : Nat) :
    (chgOf sp p).endOffset = p + (renderSpan sp).length := by
  cases sp <;> rfl

theorem chgOf_ins_getD (sp : SpanSpec) (p : Nat) :
    (chgOf sp p).inserted.getD [] = insContentOf sp := by
  cases sp with
  | del com rw body => cases rw <;> simp [chgOf, insContentOf]
  | ins com body => rfl

theorem chgOf_del_getD (sp : SpanSpec) (p : Nat) :
    (chgOf sp p).deleted.getD [] = delContentOf sp := by
  cases sp <;> rfl

theorem chgOf_shift (sp : SpanSpec) (p : Nat) : (chgOf sp 0).shift p = chgOf sp p := by
  cases sp <;> simp [chgOf, ChangeRec.shift] <;> omega

theorem parseChangesF_nil (fuel pos : Nat) : parseChangesF fuel pos [] = [] := by
  cases fuel <;> rfl

theorem parseChangesF_skip_clean :
    ∀ (seg : Str), '<' ∉ seg → ∀ (X : Str) (fuel pos : Nat), seg.length ≤ fuel →
      parseChangesF fuel pos (seg ++ X)
        = parseChangesF (fuel - seg.length) (pos + seg.length) X := by
  intro seg
  induction seg with
  | nil => intro _ X fuel pos _; simp
  | cons ch t ih =>
    intro h X fuel pos hf
    cases fuel with
    | zero => simp at hf
    | succ f =>
      rw [List.cons_append, parseChangesF,
          tryChange_fail_head ch (t ++ X)
            (fun he => h (by rw [he]; exact List.mem_cons_self _ _))]
      rw [ih (fun hm => h (List.mem_cons_of_mem ch hm)) X f (pos + 1)
        (by simp only [List.length_cons] at hf; omega)]
      simp only [List.length_cons, Nat.add_sub_add_right]
      rw [show pos + (t.length + 1) = pos + 1 + t.length by omega]

theorem parseChangesF_emit (sp : SpanSpec) (X : Str) (fuel pos : Nat)
    (h : tryChange (renderSpan sp ++ X) = some (chgOf sp 0, X)) :
    parseChangesF (fuel + 1) pos (renderSpan sp ++ X)
      = chgOf sp pos :: parseChangesF fuel (pos + (renderSpan sp).length) X := by
  obtain ⟨t, ht⟩ := renderSpan_cons sp X
  rw [ht, parseChangesF, ← ht, h]
  dsimp only
  rw [chgOf_shift,
      show (renderSpan sp ++ X).length - X.length = (renderSpan sp).length by simp]

theorem parseSpec_correct :
    ∀ (chs : List (SpanSpec × Str)) (s0 : Str) (fuel pos : Nat), wfDerived s0 chs →
      (interleaveSpans s0 chs).length ≤ fuel →
      parseChangesF fuel pos (interleaveSpans s0 chs) = parseSpec pos s0 chs := by
  intro chs
  induction chs with
  | nil =>
    intro s0 fuel pos hwf hf
    have h := parseChangesF_skip_clean s0 hwf.1 [] fuel pos hf
    simpa [parseChangesF_nil, interleaveSpans, parseSpec] using h
  | cons p rest ih =>
    intro s0 fuel pos hwf hf
    obtain ⟨sp, s⟩ := p
    have h0 : cleanStr s0 := hwf.1
    have hhead := hwf.2 (sp, s) (List.mem_cons_self _ _)
    have hrest : wfDerived s rest :=
      ⟨hhead.2, fun q hq => hwf.2 q (List.mem_cons_of_mem _ hq)⟩
    have hstep : interleaveSpans s0 ((sp, s) :: rest)
        = s0 ++ (renderSpan sp ++ interleaveSpans s rest) := by
      simp [interleaveSpans]
    have hf2 : s0.length + ((renderSpan sp).length + (interleaveSpans s rest).length)
        ≤ fuel := by
      rw [hstep] at hf
      simpa using hf
    have hpos := renderSpan_len_pos sp
    rw [hstep, parseChangesF_skip_clean s0 h0 _ fuel pos (by omega)]
    have htc : tryChange (renderSpan sp ++ interleaveSpans s rest)
        = some (chgOf sp 0, interleaveSpans s rest) := by
      cases sp with
      | del c r b =>
        exact tryChange_del c r b _ hhead.1.1.2
          (fun v hv => (hhead.1.2.1 v hv).2) hhead.1.2.2
      | ins c b => exact tryChange_ins c b _ hhead.1.1.2 hhead.1.2
    cases hk : fuel - s0.length with
    | zero => omega
    | succ k =>
      rw [parseChangesF_emit sp _ k (pos + s0.length) htc]
      rw [ih s k (pos + s0.length + (renderSpan sp).length) hrest (by omega)]
      rfl

/-- `parseChanges` on a derived annotated text yields exactly one change
record per span, at the span's offset. -/
theorem parseChanges_derived (s0 : Str) (chs : List (SpanSpec × Str))
    (hwf : wfDerived s0 chs) :
    parseChanges (interleaveSpans s0 chs) = parseSpec 0 s0 chs := by
  rw [parseChanges]
  exact parseSpec_correct chs s0 _ 0 hwf (le_refl _)

theorem sliceL_mid (P s0 R : Str) :
    sliceL (P ++ (s0 ++ R)) P.length (P.length + s0.length) = s0 := by
  rw [sliceL, List.drop_left, Nat.add_sub_cancel_left, List.take_left]

theorem applyGo_spec :
    ∀ (chs : List (SpanSpec × Str)) (s0 P A : Str) (ds : List Bool) (i : Nat)
      (dec : Nat → Option Bool),
      A = P ++ interleaveSpans s0 chs →
      (∀ j, dec (i + j) = ds[j]?) →
      chs.length ≤ ds.length →
      applyDecisionsGo A dec i P.length (parseSpec P.length s0 chs)
        = resolveAllSpec s0 chs ds := by
  intro chs
  induction chs with
  | nil =>
    intro s0 P A ds i dec hA _ _
    rw [hA]
    exact List.drop_left P s0
  | cons q rest ih =>
    intro s0 P A ds i dec hA hdec hlen
    obtain ⟨sp, s⟩ := q
    have hA2 : A = P ++ (s0 ++ (renderSpan sp ++ interleaveSpans s rest)) := by
      rw [hA]
      simp [interleaveSpans]
    cases ds with
    | nil => simp at hlen
    | cons d ds' =>
      have hd0 : dec i = some d := by simpa using hdec 0
      have hdec' : ∀ j, dec (i + 1 + j) = ds'[j]? := by
        intro j
        rw [show i + 1 + j = i + (j + 1) by omega]
        simpa using hdec (j + 1)
      have hlen' : rest.length ≤ ds'.length := by simpa using hlen
      have hrec := ih s (P ++ s0 ++ renderSpan sp) A ds' (i + 1) dec
        (by rw [hA2]; simp) hdec' hlen'
      rw [parseSpec, applyDecisionsGo, chgOf_start, chgOf_end, hd0]
      rw [show sliceL A P.length (P.length + s0.length) = s0 by
        rw [hA2]; exact sliceL_mid P s0 _]
      rw [show P.length + s0.length + (renderSpan sp).length
          = (P ++ s0 ++ renderSpan sp).length by simp only [List.length_append]]
      rw [hrec]
      cases d with
      | true => simp [resolveAllSpec, resolveSpecOne, chgOf_ins_getD]
      | false => simp [resolveAllSpec, resolveSpecOne, chgOf_del_getD]

/-- `applyDecisions` on a derived text with a full decision list is the
independent per-span resolution against the original. -/
theorem applyDecisions_derived (s0 : Str) (chs : List (SpanSpec × Str)) (ds : List Bool)
    (hwf : wfDerived s0 chs) (hlen : chs.length ≤ ds.length) :
    applyDecisions (interleaveSpans s0 chs) (fun k => ds[k]?)
      = resolveAllSpec s0 chs ds := by
  rw [applyDecisions, parseChanges_derived s0 chs hwf]
  have h := applyGo_spec chs s0 [] (interleaveSpans s0 chs) ds 0 (fun k => ds[k]?)
    (by simp) (fun j => by simp) hlen
  simpa using h

theorem not_mem_unrepQuot (a : Char) (ha : a ≠ '"') :
    ∀ (n : Nat) (s : Str), s.length ≤ n → a ∉ s → a ∉ unrepQuot s := by
  intro n
  induction n with
  | zero =>
    intro s hl hm
    cases s with
    | nil => simp [unrepQuot]
    | cons c t => simp at hl
  | succ n ih =>
    intro s hl hm
    rw [unrepQuot.eq_def]
    split
    · rename_i x t
      have hmt : a ∉ t := fun hx => hm (by simp [hx])
      have hlt : t.length ≤ n := by simp at hl; omega
      intro hx
      rcases List.mem_cons.mp hx with h1 | h1
      · exact ha h1
      · exact ih t hlt hmt h1
    · rename_i x c t h2
      have hmt : a ∉ t := fun hx => hm (List.mem_cons_of_mem c hx)
      have hlt : t.length ≤ n := by simp at hl; omega
      intro hx
      rcases List.mem_cons.mp hx with h1 | h1
      · exact hm (by simp [h1])
      · exact ih t hlt hmt h1
    · simp

theorem not_mem_unrepAmp (a : Char) (ha : a ≠ '&') :
    ∀ (n : Nat) (s : Str), s.length ≤ n → a ∉ s → a ∉ unrepAmp s := by
  intro n
  induction n with
  | zero =>
    intro s hl hm
    cases s with
    | nil => simp [unrepAmp]
    | cons c t => simp at hl
  | succ n ih =>
    intro s hl hm
    rw [unrepAmp.eq_def]
    split
    · rename_i x t
      have hmt : a ∉ t := fun hx => hm (by simp [hx])
      have hlt : t.length ≤ n := by simp at hl; omega
      intro hx
      rcases List.mem_cons.mp hx with h1 | h1
      · exact ha h1
      · exact ih t hlt hmt h1
    · rename_i x c t h2
      have hmt : a ∉ t := fun hx => hm (List.mem_cons_of_mem c hx)
      have hlt : t.length ≤ n := by simp at hl; omega
      intro hx
      rcases List.mem_cons.mp hx with h1 | h1
      · exact hm (by simp [h1])
      · exact ih t hlt hmt h1
    · simp

theorem not_mem_unescapeAttr (a : Char) (ha1 : a ≠ '"') (ha2 : a ≠ '&')
    (s : Str) (hs : a ∉ s) : a ∉ unescapeAttr s :=
  not_mem_unrepAmp a ha2 (unrepQuot s).length (unrepQuot s) (le_refl _)
    (not_mem_unrepQuot a ha1 s.length s (le_refl _) hs)

theorem clean_resolveSpecOne (sp : SpanSpec) (d : Bool) (hwf : SpanSpec.wf sp) :
    '<' ∉ resolveSpecOne sp d := by
  cases d with
  | false =>
    cases sp with
    | del com rw body => exact hwf.2.2
    | ins com body => simp [resolveSpecOne, delContentOf]
  | true =>
    cases sp with
    | del com rw body =>
      cases rw with
      | none => simp [resolveSpecOne, insContentOf]
      | some v =>
        have hv : '<' ∉ v := (hwf.2.1 v rfl).1
        simpa [resolveSpecOne, insContentOf] using
          not_mem_unescapeAttr '<' (by decide) (by decide) v hv
    | ins com body => exact hwf.2

theorem mergeAt_wf :
    ∀ (chs : List (SpanSpec × Str)) (s0 : Str) (i : Nat) (d : Bool),
      wfDerived s0 chs →
      wfDerived (mergeAt s0 chs i d).1 (mergeAt s0 chs i d).2 := by
  intro chs
  induction chs with
  | nil => intro s0 i d hwf; exact ⟨hwf.1, by simp [mergeAt]⟩
  | cons q rest ih =>
    intro s0 i d hwf
    obtain ⟨sp, s⟩ := q
    have hhead := hwf.2 (sp, s) (List.mem_cons_self _ _)
    have hrest : wfDerived s rest :=
      ⟨hhead.2, fun q hq => hwf.2 q (List.mem_cons_of_mem _ hq)⟩
    cases i with
    | zero =>
      refine ⟨?_, hrest.2⟩
      intro hm
      simp only [mergeAt, List.mem_append] at hm
      rcases hm with (hm | hm) | hm
      · exact hwf.1 hm
      · exact clean_resolveSpecOne sp d hhead.1 hm
      · exact hhead.2 hm
    | succ i' =>
      have hih := ih s i' d hrest
      refine ⟨hwf.1, ?_⟩
      intro q hq
      simp only [mergeAt, List.mem_cons] at hq
      rcases hq with hq | hq
      · rw [hq]
        exact ⟨hhead.1, hih.1⟩
      · exact hih.2 q hq

theorem mergeAt_len :
    ∀ (chs : List (SpanSpec × Str)) (s0 : Str) (i : Nat) (d : Bool), i < chs.length →
      (mergeAt s0 chs i d).2.length = chs.length - 1 := by
  intro chs
  induction chs with
  | nil => intro s0 i d hi; simp at hi
  | cons q rest ih =>
    intro s0 i d hi
    obtain ⟨sp, s⟩ := q
    cases i with
    | zero => simp [mergeAt]
    | succ i' =>
      have hi' : i' < rest.length := by simpa using hi
      have h := ih s i' d hi'
      simp only [mergeAt, List.length_cons, h]
      omega

theorem resolveAll_append (u t0 : Str) (chs : List (SpanSpec × Str)) (ds : List Bool) :
    resolveAllSpec (u ++ t0) chs ds = u ++ resolveAllSpec t0 chs ds := by
  cases chs with
  | nil => rfl
  | cons q rest =>
    obtain ⟨sp, s⟩ := q
    simp [resolveAllSpec]

theorem resolveAll_mergeAt :
    ∀ (chs : List (SpanSpec × Str)) (s0 : Str) (i : Nat) (d : Bool) (ds : List Bool),
      ds[i]? = some d →
      resolveAllSpec (mergeAt s0 chs i d).1 (mergeAt s0 chs i d).2 (ds.eraseIdx i)
        = resolveAllSpec s0 chs ds := by
  intro chs
  induction chs with
  | nil => intro s0 i d ds hd; rfl
  | cons q rest ih =>
    intro s0 i d ds hd
    obtain ⟨sp, s⟩ := q
    cases i with
    | zero =>
      cases ds with
      | nil => simp at hd
      | cons d0 ds' =>
        simp only [List.getElem?_cons_zero, Option.some.injEq] at hd
        subst hd
        simp only [mergeAt, List.eraseIdx]
        rw [resolveAll_append (s0 ++ resolveSpecOne sp d0) s rest ds']
        simp [resolveAllSpec]
    | succ i' =>
      cases ds with
      | nil => simp at hd
      | cons d0 ds' =>
        simp only [List.getElem?_cons_succ] at hd
        simp only [mergeAt, List.eraseIdx, resolveAllSpec, List.headD_cons, List.tail_cons]
        rw [ih s i' d ds' hd]

theorem parseSpec_get :
    ∀ (chs : List (SpanSpec × Str)) (i : Nat) (pos : Nat) (s0 : Str)
      (hi : i < chs.length),
      (parseSpec pos s0 chs)[i]?
        = some (chgOf (chs.get ⟨i, hi⟩).1 (pos + prefLen s0 chs i)) := by
  intro chs
  induction chs with
  | nil => intro i pos s0 hi; simp at hi
  | cons q rest ih =>
    intro i pos s0 hi
    obtain ⟨sp, s⟩ := q
    cases i with
    | zero => simp [parseSpec, prefLen]
    | succ i' =>
      have hi' : i' < rest.length := by simpa using hi
      simp only [parseSpec, List.getElem?_cons_succ]
      rw [ih i' (pos + s0.length + (renderSpan sp).length) s hi']
      rw [show pos + s0.length + (renderSpan sp).length + prefLen s rest i'
          = pos + (s0.length + (renderSpan sp).length + prefLen s rest i') by omega]
      rfl

theorem spliceAt_derived :
    ∀ (chs : List (SpanSpec × Str)) (i : Nat) (s0 P : Str) (d : Bool)
      (hi : i < chs.length),
      (P ++ interleaveSpans s0 chs).take (P.length + prefLen s0 chs i)
        ++ resolveSpecOne (chs.get ⟨i, hi⟩).1 d
        ++ (P ++ interleaveSpans s0 chs).drop
            (P.length + prefLen s0 chs i + (renderSpan (chs.get ⟨i, hi⟩).1).length)
      = P ++ interleaveSpans (mergeAt s0 chs i d).1 (mergeAt s0 chs i d).2 := by
  intro chs
  induction chs with
  | nil => intro i s0 P d hi; simp at hi
  | cons q rest ih =>
    intro i s0 P d hi
    obtain ⟨sp, s⟩ := q
    cases i with
    | zero =>
      have hA : P ++ interleaveSpans s0 ((sp, s) :: rest)
          = (P ++ s0) ++ (renderSpan sp ++ interleaveSpans s rest) := by
        simp [interleaveSpans]
      rw [show (((sp, s) :: rest).get ⟨0, hi⟩) = (sp, s) from rfl]
      rw [hA, show P.length + prefLen s0 ((sp, s) :: rest) 0 = (P ++ s0).length by
        simp [prefLen]]
      rw [List.take_left]
      rw [show ((P ++ s0) ++ (renderSpan sp ++ interleaveSpans s rest))
          = ((P ++ s0) ++ renderSpan sp) ++ interleaveSpans s rest by simp]
      rw [show (P ++ s0).length + (renderSpan sp).length
          = ((P ++ s0) ++ renderSpan sp).length by simp only [List.length_append]]
      rw [List.drop_left]
      simp only [mergeAt]
      rw [show interleaveSpans (s0 ++ resolveSpecOne sp d ++ s) rest
          = (s0 ++ resolveSpecOne sp d) ++ interleaveSpans s rest
        from interleave_append (s0 ++ resolveSpecOne sp d) s rest]
      simp
    | succ i' =>
      have hi' : i' < rest.length := by simpa using hi
      have hA : P ++ interleaveSpans s0 ((sp, s) :: rest)
          = (P ++ s0 ++ renderSpan sp) ++ interleaveSpans s rest := by
        simp [interleaveSpans]
      have hpos : P.length + prefLen s0 ((sp, s) :: rest) (i' + 1)
          = (P ++ s0 ++ renderSpan sp).length + prefLen s rest i' := by
        simp only [prefLen, List.length_append]
        omega
      have hget : ((sp, s) :: rest).get ⟨i' + 1, hi⟩ = rest.get ⟨i', hi'⟩ := rfl
      rw [hget, hA, hpos]
      rw [ih i' s (P ++ s0 ++ renderSpan sp) d hi']
      simp only [mergeAt]
      rw [show interleaveSpans s0 ((sp, (mergeAt s rest i' d).1) :: (mergeAt s rest i' d).2)
          = s0 ++ renderSpan sp
            ++ interleaveSpans (mergeAt s rest i' d).1 (mergeAt s rest i' d).2 by
        simp [interleaveSpans]]
      simp

/-- One `acceptChange`/`rejectChange` splice on a derived text folds the
chosen span into its neighbouring segments and leaves a derived text of
the remaining spans. -/
theorem resolveStep_derived (s0 : Str) (chs : List (SpanSpec × Str)) (i : Nat) (d : Bool)
    (hwf : wfDerived s0 chs) (hi : i < chs.length) :
    resolveStep (interleaveSpans s0 chs) i d
      = interleaveSpans (mergeAt s0 chs i d).1 (mergeAt s0 chs i d).2 := by
  rw [resolveStep, parseChanges_derived s0 chs hwf, parseSpec_get chs i 0 s0 hi]
  dsimp only
  rw [chgOf_start, chgOf_end, chgOf_ins_getD, chgOf_del_getD]
  have h := spliceAt_derived chs i s0 [] d hi
  simpa [resolveSpecOne] using h

theorem resolveSeq_valid :
    ∀ (ops : List (Nat × Bool)) (chs : List (SpanSpec × Str)) (ds : List Bool)
      (s0 : Str), wfDerived s0 chs → ValidSeq chs.length ds ops →
      resolveSeq (interleaveSpans s0 chs) ops = resolveAllSpec s0 chs ds := by
  intro ops
  induction ops with
  | nil =>
    intro chs ds s0 hwf hv
    generalize hn : chs.length = n at hv
    cases hv
    have hc : chs = [] := List.length_eq_zero.mp hn
    subst hc
    rfl
  | cons op ops ih =>
    intro chs ds s0 hwf hv
    obtain ⟨i, d⟩ := op
    generalize hn : chs.length = n at hv
    cases hv with
    | step hi hd hrec =>
      have hi' : i < chs.length := by omega
      have hlen2 : (mergeAt s0 chs i d).2.length = n - 1 := by
        rw [mergeAt_len chs s0 i d hi', hn]
      rw [show resolveSeq (interleaveSpans s0 chs) ((i, d) :: ops)
          = resolveSeq (resolveStep (interleaveSpans s0 chs) i d) ops from rfl]
      rw [resolveStep_derived s0 chs i d hwf hi']
      rw [ih (mergeAt s0 chs i d).2 (ds.eraseIdx i) (mergeAt s0 chs i d).1
        (mergeAt_wf chs s0 i d hwf) (hlen2 ▸ hrec)]
      exact resolveAll_mergeAt chs s0 i d ds hd

/-- C2: on a derived annotated text (non-overlapping changes in document
order), the batch `applyDecisions` splice and every sequential schedule
that resolves each change once at its then-current index (re-parsing
after every splice, as `acceptChange`/`rejectChange` do) produce the same
final plain text: each span independently replaced by its insertion or
deletion content per its decision, against the original pre-annotation
text.  Any two resolution orders therefore commute. -/
theorem C2_decisions_commute (s0 : Str) (chs : List (SpanSpec × Str)) (ds : List Bool)
    (hwf : wfDerived s0 chs) (hlen : chs.length ≤ ds.length) :
    (applyDecisions (interleaveSpans s0 chs) (fun k => ds[k]?)
        = resolveAllSpec s0 chs ds)
    ∧ ∀ ops : List (Nat × Bool), ValidSeq chs.length ds ops →
        resolveSeq (interleaveSpans s0 chs) ops = resolveAllSpec s0 chs ds :=
  ⟨applyDecisions_derived s0 chs ds hwf hlen,
   fun ops hv => resolveSeq_valid ops chs ds s0 hwf hv⟩

theorem C2_decisions_commute_witness :
    (applyDecisions (interleaveSpans (strL "A ")
        [(SpanSpec.del (strL "c") none (strL "x"), strL " B "),
         (SpanSpec.ins (strL "d") (strL "y"), strL " C")])
        (fun k => [true, false][k]?)
      = resolveAllSpec (strL "A ")
        [(SpanSpec.del (strL "c") none (strL "x"), strL " B "),
         (SpanSpec.ins (strL "d") (strL "y"), strL " C")] [true, false])
    ∧ resolveSeq (interleaveSpans (strL "A ")
        [(SpanSpec.del (strL "c") none (strL "x"), strL " B "),
         (SpanSpec.ins (strL "d") (strL "y"), strL " C")]) [(1, false), (0, true)]
      = resolveAllSpec (strL "A ")
        [(SpanSpec.del (strL "c") none (strL "x"), strL " B "),
         (SpanSpec.ins (strL "d") (strL "y"), strL " C")] [true, false] := by
  have hwf : wfDerived (strL "A ")
      [(SpanSpec.del (strL "c") none (strL "x"), strL " B "),
       (SpanSpec.ins (strL "d") (strL "y"), strL " C")] := by
    constructor
    · show ('<' : Char) ∉ strL "A "
      decide
    · intro p hp
      simp only [List.mem_cons, List.not_mem_nil, or_false] at hp
      rcases hp with hp | hp <;> subst hp
      · exact ⟨⟨⟨by decide, by decide⟩,
          fun v hv => Option.noConfusion hv,
          show ('<' : Char) ∉ strL "x" by decide⟩,
          show ('<' : Char) ∉ strL " B " by decide⟩
      · exact ⟨⟨⟨by decide, by decide⟩,
          show ('<' : Char) ∉ strL "y" by decide⟩,
          show ('<' : Char) ∉ strL " C" by decide⟩
  have h := C2_decisions_commute (strL "A ")
    [(SpanSpec.del (strL "c") none (strL "x"), strL " B "),
     (SpanSpec.ins (strL "d") (strL "y"), strL " C")] [true, false] hwf (by decide)
  exact ⟨h.1, h.2 [(1, false), (0, true)]
    (ValidSeq.step (by decide) rfl
      (ValidSeq.step (by decide) rfl ValidSeq.nil))⟩

/-- Closed instance of C3: two blocks, the first missing from the
judgment map and the second judged `lgtm`. -/
theorem C3_reconstruct_failopen_witness :
    ((reconstructBlocks (fun n => if n = 2 then some (strL "lgtm") else none)
        1 [strL "a", strL "b"]).1[0]? = some (strL "a") ∧
      (reconstruct (fun n => if n = 2 then some (strL "lgtm") else none)
        [] [strL "a", strL "b"]).2.filter (fun w => w.num == 1)
        = [RWarn.missing 1]) ∧
    ((reconstructBlocks (fun n => if n = 2 then some (strL "lgtm") else none)
        1 [strL "a", strL "b"]).1[1]? = some (strL "b") ∧
      (reconstruct (fun n => if n = 2 then some (strL "lgtm") else none)
        [] [strL "a", strL "b"]).2.filter (fun w => w.num == 2) = []) :=
  ⟨(C3_reconstruct_failopen (fun n => if n = 2 then some (strL "lgtm") else none)
      [] [strL "a", strL "b"]).2.2.1 0 (by decide) (by decide),
   (C3_reconstruct_failopen (fun n => if n = 2 then some (strL "lgtm") else none)
      [] [strL "a", strL "b"]).2.2.2 1 (by decide) (by decide)⟩

end StrikeMD
